/-
Verification of core GraphCrawler components against their specification.

The Python source is shallowly embedded in Lean 4:
  * Python dicts become functions String → Option String (dict.update and
    dict.copy translate to function override and the identity).
  * Python floats in the throttler become exact rationals (ℚ).
  * Stateful methods become explicit state-passing functions.
  * Fallible code (raising exceptions) returns Except.
  * aiohttp / asyncio effects are represented by explicit outcome
    environments fed to the embedded control flow.

Components covered: FetchResponse (domain/value_objects/models.py),
AdaptiveThrottler (application/use_cases/crawling/adaptive_throttler.py),
Node and its plugin pipeline (domain/entities/node.py), NodeScanner
(application/use_cases/crawling/node_scanner.py), AsyncDriver
(infrastructure/transport/async_http/driver.py), NodeMapper
(application/dto/mappers/node_mapper.py), URL normalization
(shared/utils/url_utils.py, embedding CPython urllib.parse).
-/

import Mathlib

namespace GraphCrawler

/-! ### Python dict model

Python dicts with string keys are modelled as functions to Option.
d.update(other) sets every key of other, keeping the rest of d.
d.copy() is the identity on this model. -/

/-- A Python dict with string keys and string values. -/
def Dict := String → Option String

/-- The empty dict. -/
def Dict.empty : Dict := fun _ => none

/-- d[k] = v assignment. -/
def Dict.insert (d : Dict) (k v : String) : Dict :=
  fun q => if q = k then some v else d q

/-- d.update(other): keys of other win, remaining keys keep d's value. -/
def Dict.update (d other : Dict) : Dict :=
  fun q => match other q with
  | some v => some v
  | none => d q

/-- d.get(k, default). -/
def Dict.getD (d : Dict) (k default : String) : String :=
  match d k with
  | some v => v
  | none => default

/-! ### URL parsing and normalization (shared/utils/url_utils.py)

URLUtils.normalize_url parses with urllib.parse.urlparse and rebuilds the
URL with urllib.parse.urlunparse, dropping the fragment. We embed the
CPython (3.12) string algorithms over List Char:

  urlsplit: strip leading C0-control/space characters, remove every tab,
  CR and LF, then split off scheme (first ':', only when the prefix is a
  letter-led run of scheme characters), netloc (after a leading '//', up
  to the first '/', '?' or '#'), fragment (after the first '#') and query
  (after the first '?').

  urlparse additionally splits params: the part of the path after the
  first ';' that follows the last '/' (or the first ';' when the path has
  no '/').

  urlunsplit/urlunparse re-concatenate, dropping empty components. -/

/-- The WHATWG C0-control-or-space set stripped from the front of a URL. -/
def isC0OrSpace (c : Char) : Bool := c.toNat ≤ 32

/-- Tab, CR and LF are removed from anywhere in the URL. -/
def isUnsafeUrlByte (c : Char) : Bool := c = '\t' || c = '\r' || c = '\n'

/-- The lstrip and replace steps at the top of urlsplit. -/
def cleanUrl (l : List Char) : List Char :=
  (l.dropWhile isC0OrSpace).filter (fun c => !isUnsafeUrlByte c)

/-- scheme_chars of urllib.parse: ASCII letters, digits and +-. -/
def schemeChar (c : Char) : Bool :=
  c.isAlpha || c.isDigit || c = '+' || c = '-' || c = '.'

/-- Characters that terminate the netloc in _splitnetloc. -/
def netlocDelim (c : Char) : Bool := c = '/' || c = '?' || c = '#'

/-- Scheme extraction of urlsplit: at the first ':', provided it is not at
position 0, the first character is an ASCII letter, and everything before
the colon is a scheme character; the scheme is lowercased. -/
def extractScheme : List Char → List Char × List Char
  | [] => ([], [])
  | c :: cs =>
    let l := c :: cs
    let pre := l.takeWhile (· ≠ ':')
    if pre.length < l.length && !pre.isEmpty && c.isAlpha && pre.all schemeChar then
      (pre.map Char.toLower, l.drop (pre.length + 1))
    else ([], l)

/-- Netloc extraction: when the remainder starts with '//', the netloc
runs from position 2 up to the first '/', '?' or '#'. -/
def splitNetloc (l : List Char) : List Char × List Char :=
  match l with
  | '/' :: '/' :: rest =>
      (rest.takeWhile (fun c => !netlocDelim c), rest.dropWhile (fun c => !netlocDelim c))
  | _ => ([], l)

/-- s.split(sep, 1): the part before the first sep and the part after it
(all of s and the empty string when sep does not occur). -/
def splitTail (sep : Char) (l : List Char) : List Char × List Char :=
  let a := l.takeWhile (· ≠ sep)
  (a, l.drop (a.length + 1))

/-- Result of urlsplit. -/
structure SplitResult where
  scheme : List Char
  netloc : List Char
  path : List Char
  query : List Char
  fragment : List Char
deriving Repr, DecidableEq

/-- urllib.parse.urlsplit with allow_fragments=True (bracketed-host and
netloc character checks, which only raise, are treated separately: they
depend on the netloc component alone). -/
def urlsplitList (u : List Char) : SplitResult :=
  let l := cleanUrl u
  let sr := extractScheme l
  let nr := splitNetloc sr.2
  let fr := splitTail '#' nr.2
  let qr := splitTail '?' fr.1
  ⟨sr.1, nr.1, qr.1, qr.2, fr.2⟩

/-- The part of a list after its last '/' (the whole list when there is
no '/'); url[url.rfind('/'):] without the slash itself. -/
def afterLastSlash (p : List Char) : List Char :=
  (p.reverse.takeWhile (· ≠ '/')).reverse

/-- _splitparams of urllib.parse, guarded by the ';' membership test of
urlparse: split at the first ';' after the last '/' (or the first ';'
when the path has no '/'). -/
def splitParams (p : List Char) : List Char × List Char :=
  if ';' ∈ p then
    if '/' ∈ p then
      let b := afterLastSlash p
      let a := p.take (p.length - b.length - 1)
      if ';' ∈ b then
        let xy := splitTail ';' b
        (a ++ '/' :: xy.1, xy.2)
      else (p, [])
    else splitTail ';' p
  else (p, [])

/-- The path as urlunparse rebuilds it from a splitParams result: params
re-attached after ';' when present. normalize_url maps a parsed path p to
ppP p. -/
def ppP (p : List Char) : List Char :=
  if (splitParams p).2 ≠ [] then (splitParams p).1 ++ ';' :: (splitParams p).2
  else (splitParams p).1

/-- uses_netloc of urllib.parse (CPython 3.11); the empty scheme entry is
irrelevant below because urlunsplit also tests that the scheme is
non-empty. -/
def usesNetloc : List (List Char) :=
  [[], "ftp".data, "http".data, "gopher".data, "nntp".data, "telnet".data,
   "imap".data, "wais".data, "file".data, "mms".data, "https".data,
   "shttp".data, "snews".data, "prospero".data, "rtsp".data, "rtsps".data,
   "rtspu".data, "rsync".data, "svn".data, "svn+ssh".data, "sftp".data,
   "nfs".data, "git".data, "git+ssh".data, "ws".data, "wss".data]

/-- urllib.parse.urlunsplit: the '//' group is emitted when the netloc is
non-empty, or when the scheme is a non-empty uses_netloc scheme and the
path does not already start with '//'. -/
def urlunsplitList (scheme netloc path query fragment : List Char) : List Char :=
  let url :=
    if netloc ≠ [] ∨ (scheme ≠ [] ∧ scheme ∈ usesNetloc ∧ path.take 2 ≠ ['/', '/']) then
      let url2 := if path ≠ [] ∧ path.head? ≠ some '/' then '/' :: path else path
      '/' :: '/' :: (netloc ++ url2)
    else path
  let url := if scheme ≠ [] then scheme ++ ':' :: url else url
  let url := if query ≠ [] then url ++ '?' :: query else url
  if fragment ≠ [] then url ++ '#' :: fragment else url

/-- urllib.parse.urlunparse: re-attach params to the path, then unsplit. -/
def urlunparseList (scheme netloc path params query fragment : List Char) : List Char :=
  let url := if params ≠ [] then path ++ ';' :: params else path
  urlunsplitList scheme netloc url query fragment

/-- URLUtils.normalize_url: parse, drop the fragment, rebuild. -/
def normalizeUrlList (u : List Char) : List Char :=
  let r := urlsplitList u
  let pp := splitParams r.path
  urlunparseList r.scheme r.netloc pp.1 pp.2 r.query []

/-- URLUtils.normalize_url on Lean strings. -/
def normalize_url (s : String) : String :=
  ⟨normalizeUrlList s.data⟩

/-! ### FetchResponse (domain/value_objects/models.py) -/

/-- FetchResponse: the driver's answer for one URL
(domain/value_objects/models.py). -/
structure FetchResponse where
  url : String
  html : Option String := none
  status_code : Option Int := none
  headers : List (String × String) := []
  error : Option String := none
  final_url : Option String := none
  redirect_chain : List String := []
deriving Repr, DecidableEq

/-- is_success: error is None and html is not None. -/
def FetchResponse.is_success (r : FetchResponse) : Bool :=
  r.error = none && r.html ≠ none

/-- is_ok: status_code is a 2xx. -/
def FetchResponse.is_ok (r : FetchResponse) : Bool :=
  match r.status_code with
  | some s => 200 ≤ s && s < 300
  | none => false

/-- is_redirect: final_url is not None and final_url != url. -/
def FetchResponse.is_redirect (r : FetchResponse) : Bool :=
  match r.final_url with
  | some f => f ≠ r.url
  | none => false

/-! ### Node lifecycle and plugin system

domain/value_objects/lifecycle.py and extensions/plugins/node/base.py are
referenced by domain/entities/node.py but are not present under src/;
NodeLifecycle and the plugin manager are modelled from the spec (§3, §4.4)
and from how node.py uses them. -/

/-- Modelled from the spec: NodeLifecycle (domain/value_objects/lifecycle.py
is not in src/). The spec gives the enum with serialized values
"url_stage" and "html_stage". -/
inductive NodeLifecycle where
  | url_stage
  | html_stage
deriving Repr, DecidableEq

/-- The .value string of the lifecycle enum (used by serialization). -/
def NodeLifecycle.value : NodeLifecycle → String
  | .url_stage => "url_stage"
  | .html_stage => "html_stage"

/-- NodeLifecycle(s): enum lookup by value, raising on unknown strings. -/
def NodeLifecycle.ofValue (s : String) : Except String NodeLifecycle :=
  if s = "url_stage" then .ok .url_stage
  else if s = "html_stage" then .ok .html_stage
  else .error "invalid NodeLifecycle value"

/-- The serialized fields of a Node (the pydantic fields of
domain/entities/node.py). created_at is an opaque timestamp. -/
structure NodeData where
  url : String
  node_id : String := ""
  depth : ℕ := 0
  should_scan : Bool := true
  can_create_edges : Bool := true
  created_at : ℕ := 0
  metadata : Dict := Dict.empty
  user_data : Dict := Dict.empty
  scanned : Bool := false
  response_status : Option Int := none
  content_hash : Option String := none
  priority : Option Int := none
  lifecycle_stage : NodeLifecycle := .url_stage

/-- NodePluginContext (spec §4.4): the shared context threaded through the
plugins of one stage. The parsed tree is represented by a String. -/
structure NodePluginContext where
  node : NodeData
  url : String
  depth : ℕ
  should_scan : Bool
  can_create_edges : Bool
  html : Option String := none
  html_tree : Option String := none
  parser : Option (String → String) := none
  metadata : Dict := Dict.empty
  user_data : Dict := Dict.empty
  extracted_links : List String := []

/-- A node plugin: receives the context, returns a (possibly mutated)
context or raises (Except.error). -/
def NodePlugin := NodePluginContext → Except String NodePluginContext

/-- Modelled from the spec: NodePluginManager
(extensions/plugins/node/base.py is not in src/). It keeps an ordered
plugin list per stage (§4.4); only the stages invoked by node.py appear. -/
structure NodePluginManager where
  on_node_created : List NodePlugin := []
  on_before_scan : List NodePlugin := []
  on_html_parsed : List NodePlugin := []
  on_after_scan : List NodePlugin := []

/-- Modelled from the spec: plugin execution for one stage (§4.4): the
context is threaded through the plugins in registration order; a raising
plugin is caught, logged and skipped, the context passing unchanged to
the next plugin. -/
def execStage (ps : List NodePlugin) (c : NodePluginContext) : NodePluginContext :=
  ps.foldl (fun c p => match p c with | .ok c2 => c2 | .error _ => c) c

/-- A Node together with its non-serialized references. The hash strategy
receives the node data and the index of the invocation (a Python strategy
object may answer differently on successive calls; the index makes that
observable). strategy_calls counts invocations so far;
hash_determinism_validated models the _hash_determinism_validated flag. -/
structure Node where
  data : NodeData
  plugin_manager : Option NodePluginManager := none
  treeParser : Option (String → String) := none
  hash_strategy : Option (NodeData → ℕ → String) := none
  hash_determinism_validated : Bool := false
  strategy_calls : ℕ := 0

/-- str.startswith on character lists (first argument: the pattern). -/
def listStartsWith : List Char → List Char → Bool
  | [], _ => true
  | _ :: _, [] => false
  | p :: ps, c :: cs => p = c && listStartsWith ps cs

/-- The url field_validator of Node: non-empty, http(s) scheme, and a
non-empty netloc under urlparse. -/
def validateNodeUrl (v : String) : Except String String :=
  if v = "" then .error "URL cannot be empty"
  else if !(listStartsWith "http://".data v.data
            || listStartsWith "https://".data v.data) then
    .error "URL must start with http:// or https://"
  else if (urlsplitList v.data).netloc = [] then
    .error "URL must have a valid domain"
  else .ok v

/-- The pydantic range check on Node.priority (ge=1, le=10). -/
def priorityOk : Option Int → Bool
  | none => true
  | some p => 1 ≤ p && p ≤ 10

/-- _trigger_node_created_hook: when a plugin manager is attached, run the
ON_NODE_CREATED plugins and take should_scan, can_create_edges and the
user_data updates from the final context. -/
def triggerNodeCreatedHook (n : Node) : Node :=
  match n.plugin_manager with
  | none => n
  | some pm =>
    let ctx : NodePluginContext :=
      { node := n.data, url := n.data.url, depth := n.data.depth,
        should_scan := n.data.should_scan,
        can_create_edges := n.data.can_create_edges }
    let ctx := execStage pm.on_node_created ctx
    { n with data := { n.data with
        should_scan := ctx.should_scan,
        can_create_edges := ctx.can_create_edges,
        user_data := n.data.user_data.update ctx.user_data } }

/-- Node(...): pydantic construction — validate the url and priority,
then model_post_init fires the ON_NODE_CREATED hook. -/
def mkNode (d : NodeData) (pm : Option NodePluginManager)
    (tp : Option (String → String)) (hs : Option (NodeData → ℕ → String)) :
    Except String Node :=
  match validateNodeUrl d.url with
  | .error e => .error e
  | .ok _ =>
    if !priorityOk d.priority then .error "priority out of range"
    else .ok (triggerNodeCreatedHook
      { data := d, plugin_manager := pm, treeParser := tp, hash_strategy := hs })

/-- Modelled from the spec: the SHA256_HASH_PATTERN check of
shared/constants.py (not in src/): only a 64-character lowercase
hexadecimal string is accepted (spec §4.5). -/
def isSha256Hex (s : String) : Bool :=
  s.length = 64 && s.data.all (fun c => c.isDigit || ('a' ≤ c && c ≤ 'f'))

/-- Node.get_content_hash together with the inlined
_validate_hash_strategy_deterministic. The Except.error branch carries the
message and the node as mutated up to the raise (the strategy was already
invoked). The default strategy hashes user_data["text_content"] with the
ambient sha function. -/
def Node.get_content_hash (sha : String → String) (n : Node) :
    Except (String × Node) (String × Node) :=
  if n.data.lifecycle_stage ≠ NodeLifecycle.html_stage then
    .error ("NodeLifecycleError: call process_html() first", n)
  else
    match n.hash_strategy with
    | some strat =>
      let h1 := strat n.data n.strategy_calls
      let n1 := { n with strategy_calls := n.strategy_calls + 1 }
      if !isSha256Hex h1 then
        .error ("ValueError: hash strategy must return valid SHA256 hex digest", n1)
      else if !n1.hash_determinism_validated then
        let h2 := strat n1.data n1.strategy_calls
        let n2 := { n1 with strategy_calls := n1.strategy_calls + 1 }
        if h1 ≠ h2 then
          .error ("ValueError: hash strategy is NOT DETERMINISTIC", n2)
        else .ok (h1, { n2 with hash_determinism_validated := true })
      else .ok (h1, n1)
    | none => .ok (sha (n.data.user_data.getD "text_content" ""), n)

/-- _compute_content_hash: store the digest, or None when
get_content_hash raised. -/
def computeContentHash (sha : String → String) (n : Node) : Node :=
  match n.get_content_hash sha with
  | .ok (h, n2) => { n2 with data := { n2.data with content_hash := some h } }
  | .error (_, n2) => { n2 with data := { n2.data with content_hash := none } }

/-- _update_from_context: metadata is replaced by the context's, user_data
is updated from the context's. -/
def updateFromContext (d : NodeData) (c : NodePluginContext) : NodeData :=
  { d with metadata := c.metadata, user_data := d.user_data.update c.user_data }

/-- The default tree adapter of infrastructure/adapters
(get_default_parser). The claims never inspect the parsed tree, so the
parse result is represented by the HTML text itself. -/
def defaultParser : String → String := fun h => h

/-- The plugin context as _execute_plugins constructs it (metadata and
user_data are copies of the node's; dict copy is the identity here). -/
def initialContext (d : NodeData) (parser : String → String)
    (html tree : String) : NodePluginContext :=
  { node := d, url := d.url, depth := d.depth, should_scan := d.should_scan,
    can_create_edges := d.can_create_edges, html := some html,
    html_tree := some tree, parser := some parser,
    metadata := d.metadata, user_data := d.user_data, extracted_links := [] }

/-- _execute_plugins: build the context, then — when a plugin manager is
attached — run ON_BEFORE_SCAN, ON_HTML_PARSED, write the context back
onto the node (_update_from_context), and run ON_AFTER_SCAN. Returns the
final context and the node data as updated in between. -/
def executePlugins (pm? : Option NodePluginManager) (d : NodeData)
    (parser : String → String) (html tree : String) :
    NodePluginContext × NodeData :=
  let ctx : NodePluginContext := initialContext d parser html tree
  match pm? with
  | none => (ctx, d)
  | some pm =>
    let c1 := execStage pm.on_before_scan ctx
    let c2 := execStage pm.on_html_parsed c1
    let d2 := updateFromContext d c2
    let c3 := execStage pm.on_after_scan c2
    (c3, d2)

/-- Node.process_html: the single URL_STAGE→HTML_STAGE mutator. A node
already at HTML_STAGE logs and returns an empty link list. Otherwise:
switch stage, parse the HTML, run the plugin stages, fold the final
context's user_data into the node, compute the content hash, and return
the extracted links. -/
def Node.process_html (sha : String → String) (n : Node) (html : String) :
    List String × Node :=
  if n.data.lifecycle_stage = NodeLifecycle.html_stage then ([], n)
  else
    let d := { n.data with lifecycle_stage := NodeLifecycle.html_stage }
    let parser := n.treeParser.getD defaultParser
    let tree := parser html
    let cd := executePlugins n.plugin_manager d parser html tree
    let d3 := { cd.2 with user_data := cd.2.user_data.update cd.1.user_data }
    let n2 := computeContentHash sha { n with data := d3 }
    (cd.1.extracted_links, n2)

/-- Node.mark_as_scanned. -/
def Node.mark_as_scanned (n : Node) : Node :=
  { n with data := { n.data with scanned := true } }

/-! ### NodeScanner (application/use_cases/crawling/node_scanner.py)

The driver call is represented by its outcome: an exception (Except.error),
None, or a FetchResponse. -/

/-- NodeScanner.scan_node: fetch, handle failure, process HTML, mark the
node scanned. Python truthiness decides the failure test: `not result or
result.error` treats a None response and a non-empty error string as
failure (an empty-string error is falsy and is NOT a failure). -/
def NodeScanner.scan_node (sha : String → String) (n : Node)
    (fetchResult : Except String (Option FetchResponse)) :
    (List String × Option FetchResponse) × Node :=
  match fetchResult with
  | .error _ => (([], none), n.mark_as_scanned)
  | .ok none => (([], none), n.mark_as_scanned)
  | .ok (some r) =>
    if r.error.getD "" ≠ "" then (([], some r), n.mark_as_scanned)
    else
      let n := { n with data := { n.data with response_status := r.status_code } }
      match r.html with
      | none => (([], some r), n.mark_as_scanned)
      | some h =>
        if h = "" then (([], some r), n.mark_as_scanned)
        else
          let ln := n.process_html sha h
          ((ln.1, some r), ln.2.mark_as_scanned)

/-! ### AsyncDriver (infrastructure/transport/async_http/driver.py)

One pass through the body of fetch is summarized by an AttemptOutcome;
fetch consumes a list of them (the recursion of the retry path re-enters
the body with the next outcome). The returned triple carries the
response, the number of retries performed, and the list of slept
retry delays. None means the attempt list was exhausted without the
recursion returning. -/

/-- What one attempt of AsyncDriver.fetch observes. -/
inductive AttemptOutcome where
  /-- A plugin set ctx.cancelled at one of the checkpoints before the
  request; the reason is ctx.data.get("cancellation_reason", "Unknown"). -/
  | cancelled (reason : Option String)
  /-- The aiohttp request completed: the response url (redirects already
  followed by the client), the decoded body if any, status, headers, the
  redirect history, and whatever error string plugins left in ctx.error. -/
  | success (respUrl : String) (html : Option String) (status : Int)
      (headers : List (String × String)) (err : Option String)
      (chain : List String)
  /-- An exception was raised; after the REQUEST_FAILED plugins,
  ctx.data carries should_retry and optionally retry_delay. -/
  | failure (msg : String) (shouldRetry : Bool) (retryDelay : Option ℚ)

/-- _create_cancelled_response. -/
def cancelledResponse (url : String) (reason : Option String) : FetchResponse :=
  { url := url, html := none, status_code := none, headers := [],
    error := some ("Cancelled: " ++ reason.getD "Unknown") }

/-- Modelled from the spec: BaseDriver._handle_fetch_error
(infrastructure/transport/base.py is not in src/). Per spec §4.3 failures
are signaled by a FetchResponse with non-nil error, never by exception. -/
def handleFetchError (url msg : String) : FetchResponse :=
  { url := url, html := none, status_code := none, headers := [],
    error := some msg }

/-- AsyncDriver.fetch of driver.py. On failure with should_retry the
driver sleeps ctx.data.get("retry_delay", 1.0) and re-enters fetch; there
is no retry counter in this driver. -/
def AsyncDriver.fetch (url : String) :
    List AttemptOutcome → Option (FetchResponse × ℕ × List ℚ)
  | [] => none
  | a :: rest =>
    match a with
    | .cancelled reason => some (cancelledResponse url reason, 0, [])
    | .success respUrl html status headers err chain =>
        some ({ url := url, html := html, status_code := some status,
                headers := headers, error := err,
                final_url := if respUrl = url then none else some respUrl,
                redirect_chain := chain }, 0, [])
    | .failure msg shouldRetry retryDelay =>
        if shouldRetry then
          match AsyncDriver.fetch url rest with
          | some (r, k, ds) => some (r, k + 1, retryDelay.getD 1 :: ds)
          | none => none
        else some (handleFetchError url msg, 0, [])

/-- AsyncDriver.fetch_many: gather with return_exceptions=True; an
exception for urls[i] becomes a FetchResponse(url=urls[i],
error=str(e)). fetchFn gives the awaited per-task outcome. -/
def AsyncDriver.fetch_many (fetchFn : ℕ → String → Except String FetchResponse)
    (urls : List String) : List FetchResponse :=
  if urls = [] then []
  else urls.enum.map fun iu =>
    match fetchFn iu.1 iu.2 with
    | .ok r => r
    | .error e =>
      { url := iu.2, html := none, status_code := none, headers := [],
        error := some e }

/-! ### NodeMapper (application/dto/mappers/node_mapper.py) -/

/-- Modelled from the spec: NodeDTO (the application/dto definitions are
not in src/); its fields are those of spec §6 and those populated by
NodeMapper.to_dto. -/
structure NodeDTO where
  node_id : String
  url : String
  depth : ℕ
  should_scan : Bool
  can_create_edges : Bool
  scanned : Bool
  response_status : Option Int
  metadata : Dict
  user_data : Dict
  content_hash : Option String
  priority : Option Int
  created_at : ℕ
  lifecycle_stage : String

/-- The context dict accepted by NodeMapper.to_domain; context.get of the
three dependency keys. -/
structure MapperContext where
  plugin_manager : Option NodePluginManager := none
  treeParser : Option (String → String) := none
  hash_strategy : Option (NodeData → ℕ → String) := none

/-- NodeMapper.to_dto: copy every serialized field, converting the
lifecycle enum to its value string; dict fields are copied. -/
def NodeMapper.to_dto (n : Node) : NodeDTO :=
  { node_id := n.data.node_id, url := n.data.url, depth := n.data.depth,
    should_scan := n.data.should_scan,
    can_create_edges := n.data.can_create_edges, scanned := n.data.scanned,
    response_status := n.data.response_status, metadata := n.data.metadata,
    user_data := n.data.user_data, content_hash := n.data.content_hash,
    priority := n.data.priority, created_at := n.data.created_at,
    lifecycle_stage := n.data.lifecycle_stage.value }

/-- NodeMapper.to_domain: convert the lifecycle string back to the enum,
then construct the Node with the dependencies taken from the context
(None when no context is supplied). -/
def NodeMapper.to_domain (dto : NodeDTO) (context : Option MapperContext) :
    Except String Node :=
  let ctx := context.getD {}
  match NodeLifecycle.ofValue dto.lifecycle_stage with
  | .error e => .error e
  | .ok stage =>
    mkNode
      { url := dto.url, node_id := dto.node_id, depth := dto.depth,
        should_scan := dto.should_scan,
        can_create_edges := dto.can_create_edges,
        created_at := dto.created_at, metadata := dto.metadata,
        user_data := dto.user_data, scanned := dto.scanned,
        response_status := dto.response_status,
        content_hash := dto.content_hash, priority := dto.priority,
        lifecycle_stage := stage }
      ctx.plugin_manager ctx.treeParser ctx.hash_strategy

/-! ### AdaptiveThrottler (application/use_cases/crawling/adaptive_throttler.py)

Python floats are embedded as exact rationals. The deque with maxlen is a
list whose oldest entries are dropped from the front on overflow. The
adjustment history (timestamps) is elided; the numeric state is kept. -/

/-- State of AdaptiveThrottler: configuration plus numeric mutable state. -/
structure Throttler where
  initial_delay : ℚ := 1/2
  min_delay : ℚ := 1/10
  max_delay : ℚ := 5
  error_threshold : ℚ := 10
  fast_response_threshold : ℚ := 1/2
  slowdown_factor : ℚ := 3/2
  speedup_factor : ℚ := 4/5
  window_size : ℕ := 100
  adjustment_interval : ℕ := 10
  current_delay : ℚ := 1/2
  recent_response_times : List ℚ := []
  recent_errors : List Bool := []
  requests_since_adjustment : ℕ := 0
  adjustments_count : ℕ := 0

/-- Append to a deque with maxlen: drop the oldest entries beyond maxlen. -/
def pushWindow {α : Type} (maxlen : ℕ) (xs : List α) (x : α) : List α :=
  let ys := xs ++ [x]
  ys.drop (ys.length - maxlen)

/-- Error rate over the sliding window, in percent
(the error_rate computation of _adjust_delay). -/
def Throttler.windowErrorRate (t : Throttler) : ℚ :=
  ((t.recent_errors.filter (· = true)).length : ℚ) / (t.recent_errors.length : ℚ) * 100

/-- Mean of the recent response times (milliseconds), 0 for an empty window. -/
def Throttler.windowAvgResponseTime (t : Throttler) : ℚ :=
  if t.recent_response_times = [] then 0
  else (t.recent_response_times.sum) / (t.recent_response_times.length : ℚ)

/-- _adjust_delay: slowdown on high error rate, else speedup on fast
responses, then clamp to the configured interval. -/
def Throttler.adjustDelay (t : Throttler) : Throttler :=
  if t.recent_errors = [] then t
  else
    let errorRate := t.windowErrorRate
    let avgMs := t.windowAvgResponseTime
    let oldDelay := t.current_delay
    let stepped : ℚ × Bool :=
      if errorRate > t.error_threshold then
        (t.current_delay * t.slowdown_factor, true)
      else if t.recent_response_times ≠ [] ∧ avgMs / 1000 < t.fast_response_threshold then
        (t.current_delay * t.speedup_factor, true)
      else
        (t.current_delay, false)
    let clamped := max t.min_delay (min stepped.1 t.max_delay)
    let counted :=
      if stepped.2 ∧ |clamped - oldDelay| > 1/1000 then t.adjustments_count + 1
      else t.adjustments_count
    { t with current_delay := clamped, adjustments_count := counted }

/-- record_success(response_time): push sample, maybe adjust. -/
def Throttler.recordSuccess (t : Throttler) (responseTime : ℚ) : Throttler :=
  let ms := responseTime * 1000
  let t := { t with
    recent_response_times := pushWindow t.window_size t.recent_response_times ms,
    recent_errors := pushWindow t.window_size t.recent_errors false }
  let t := { t with requests_since_adjustment := t.requests_since_adjustment + 1 }
  if t.requests_since_adjustment ≥ t.adjustment_interval then
    { t.adjustDelay with requests_since_adjustment := 0 }
  else t

/-- record_failure(response_time): push sample (time only when given),
maybe adjust. -/
def Throttler.recordFailure (t : Throttler) (responseTime : Option ℚ) : Throttler :=
  let t :=
    match responseTime with
    | some rt =>
        { t with recent_response_times :=
            pushWindow t.window_size t.recent_response_times (rt * 1000) }
    | none => t
  let t := { t with recent_errors := pushWindow t.window_size t.recent_errors true }
  let t := { t with requests_since_adjustment := t.requests_since_adjustment + 1 }
  if t.requests_since_adjustment ≥ t.adjustment_interval then
    { t.adjustDelay with requests_since_adjustment := 0 }
  else t

/-! ## Example fixtures used by witnesses and counterexamples -/

/-- A fetch response whose error is the empty string: non-nil but falsy. -/
def exRespEmptyError : FetchResponse :=
  { url := "https://example.com/p", html := some "<a></a>",
    status_code := some 200, error := some "" }

/-- A fetch response with a truthy error. -/
def exRespTimeout : FetchResponse :=
  { url := "https://example.com/p", error := some "timeout" }

/-- A fresh URL_STAGE node for the scanner examples. -/
def exScanNode : Node :=
  { data := { url := "https://example.com/p", node_id := "n2" } }

/-- The response one non-retried attempt yields (None for a retried
failure: control re-enters fetch). -/
def attemptResponse (url : String) : AttemptOutcome → Option FetchResponse
  | .cancelled reason => some (cancelledResponse url reason)
  | .success respUrl html status headers err chain =>
      some { url := url, html := html, status_code := some status,
             headers := headers, error := err,
             final_url := if respUrl = url then none else some respUrl,
             redirect_chain := chain }
  | .failure msg shouldRetry _ =>
      if shouldRetry then none else some (handleFetchError url msg)

/-- A valid SHA-256 digest literal. -/
def exHex : String :=
  "0123456789abcdef0123456789abcdef0123456789abcdef0123456789abcdef"

/-- A deterministic strategy always answering exHex. -/
def exStrat : NodeData → ℕ → String := fun _ _ => exHex

/-- An HTML_STAGE node carrying the strategy, not yet validated. -/
def exHashNode : Node :=
  { data := { url := "https://example.com", node_id := "n4",
              lifecycle_stage := .html_stage },
    hash_strategy := some exStrat }

/-- An ON_AFTER_SCAN plugin that writes one user_data key. -/
def writeUserData (k v : String) : NodePlugin :=
  fun c => .ok { c with user_data := c.user_data.insert k v }

/-- The manager with two ON_AFTER_SCAN writers of the same key. -/
def exAfterPM : NodePluginManager :=
  { on_after_scan := [writeUserData "tag" "a", writeUserData "tag" "b"] }

/-- A fresh node carrying that manager. -/
def exPluginNode : Node := { exScanNode with plugin_manager := some exAfterPM }

/-- A scanned node with every serialized field populated. -/
def exMapNode : Node :=
  { data := { url := "https://example.com/page", node_id := "n5", depth := 2,
              should_scan := false, can_create_edges := true,
              created_at := 1700000000, scanned := true,
              response_status := some 200, content_hash := some exHex,
              priority := some 7, lifecycle_stage := .html_stage } }

/-- A node that already reached HTML_STAGE. -/
def exHtmlNode : Node :=
  { data := { url := "https://example.com", node_id := "n1",
              lifecycle_stage := .html_stage } }

/-- A FetchResponse with no final_url recorded (no redirect). -/
def exRespNoFinal : FetchResponse := { url := "http://example.com" }

/-- A throttler mid-crawl: window of two samples, half of them errors. -/
def exThrottler : Throttler :=
  { recent_errors := [true, false], recent_response_times := [100] }

/-! ## C1 — process_html on an already-processed node -/

/-- C1: the URL_STAGE→HTML_STAGE transition happens at most once via
process_html: called on a node already at HTML_STAGE, process_html
returns an empty link list and the very same node — lifecycle_stage,
metadata, user_data, content_hash and scanned are unchanged, nothing is
raised, and no plugin effect is applied (the result does not depend on
the plugin manager). -/
theorem process_html_second_call_is_noop (sha : String → String) (n : Node)
    (html : String) (h : n.data.lifecycle_stage = NodeLifecycle.html_stage) :
    n.process_html sha html = ([], n) := by
  unfold Node.process_html
  rw [if_pos h]

/-- Witness for C1 at a concrete HTML_STAGE node. -/
theorem process_html_second_call_is_noop_witness :
    exHtmlNode.data.lifecycle_stage = NodeLifecycle.html_stage ∧
    Node.process_html (fun _ => "") exHtmlNode "<html></html>" = ([], exHtmlNode) :=
  ⟨rfl, process_html_second_call_is_noop (fun _ => "") exHtmlNode "<html></html>" rfl⟩

/-! ## C7 — is_redirect -/

/-- C7 counterexample: the claim says is_redirect holds iff final_url
differs from url, in particular when final_url is nil while url is set;
but on a response with final_url = none the code returns false although
none differs from the url. -/
theorem is_redirect_nil_final_url_counterexample :
    ¬ (exRespNoFinal.is_redirect = true ↔
        exRespNoFinal.final_url ≠ some exRespNoFinal.url) := by
  decide

/-- C7 amended: is_redirect holds iff final_url is non-nil AND differs
from url (a nil final_url is never a redirect). -/
theorem is_redirect_iff_some_final_url_ne (r : FetchResponse) :
    r.is_redirect = true ↔ ∃ f, r.final_url = some f ∧ f ≠ r.url := by
  unfold FetchResponse.is_redirect
  cases hr : r.final_url <;> simp [hr]

/-! ## C8 — adaptive throttler adjustment step -/

/-- C8: one _adjust_delay step over a non-empty window (which is how the
step is reached, once every adjustment_interval recorded samples) with
the spec's factors and thresholds: error rate above 10 percent multiplies
the delay by 1.5; otherwise a mean response time below 500 ms over a
non-empty time window multiplies it by 0.8 (errors take priority); in
both cases the result is clamped, and the delay after the step lies in
[min_delay, max_delay]. -/
theorem adjust_delay_rules_and_clamp (t : Throttler)
    (hw : t.recent_errors ≠ [])
    (hmm : t.min_delay ≤ t.max_delay)
    (hs : t.slowdown_factor = 3/2) (hp : t.speedup_factor = 4/5)
    (he : t.error_threshold = 10) (hf : t.fast_response_threshold = 1/2) :
    (t.windowErrorRate > 10 →
      t.adjustDelay.current_delay
        = max t.min_delay (min (t.current_delay * (3/2)) t.max_delay)) ∧
    (t.windowErrorRate ≤ 10 → t.recent_response_times ≠ [] →
      t.windowAvgResponseTime < 500 →
      t.adjustDelay.current_delay
        = max t.min_delay (min (t.current_delay * (4/5)) t.max_delay)) ∧
    t.min_delay ≤ t.adjustDelay.current_delay ∧
    t.adjustDelay.current_delay ≤ t.max_delay := by
  have hdiv : (t.windowAvgResponseTime / 1000 < 1/2) ↔ t.windowAvgResponseTime < 500 := by
    rw [div_lt_iff₀ (by norm_num : (0:ℚ) < 1000)]
    norm_num
  unfold Throttler.adjustDelay
  rw [if_neg hw, hs, hp, he, hf]
  dsimp only
  refine ⟨?_, ?_, le_max_left _ _, max_le hmm (min_le_right _ _)⟩
  · intro hrate
    rw [if_pos hrate]
  · intro hrate hne havg
    rw [if_neg (by simpa using not_lt.mpr hrate), if_pos ⟨hne, hdiv.mpr havg⟩]

/-- Witness for C8: half the window errored (50 percent > 10), so the
default 0.5 s delay is multiplied by 1.5 and stays inside [0.1, 5]. -/
theorem adjust_delay_rules_and_clamp_witness :
    exThrottler.recent_errors ≠ [] ∧
    exThrottler.windowErrorRate > 10 ∧
    exThrottler.adjustDelay.current_delay
      = max exThrottler.min_delay
          (min (exThrottler.current_delay * (3/2)) exThrottler.max_delay) :=
  ⟨by decide, by norm_num [Throttler.windowErrorRate, exThrottler],
   (adjust_delay_rules_and_clamp exThrottler (by decide)
      (by norm_num [exThrottler]) rfl rfl rfl rfl).1 (by norm_num [Throttler.windowErrorRate, exThrottler])⟩

/-! ## C4 — scan_node failure handling -/

/-- C4 counterexample: the claim promises that a non-nil error leaves
response_status null, but scan_node tests the error by Python truthiness:
with error = "" (non-nil) and html present the success path runs and
response_status is set to 200. -/
theorem scan_node_empty_error_string_counterexample :
    exRespEmptyError.error ≠ none ∧
    exScanNode.data.response_status = none ∧
    ((NodeScanner.scan_node (fun _ => "") exScanNode
        (.ok (some exRespEmptyError))).2).data.response_status = some 200 := by
  refine ⟨by decide, rfl, ?_⟩
  rfl

/-- C4 amended: when the fetch outcome is a failure in the sense the code
tests — the driver raised, the response is None, or the error field is a
non-empty (truthy) string — scan_node returns an empty link list, the
node ends scanned, and response_status is left unchanged (so it stays
null when it was null). -/
theorem scan_node_failure_marks_scanned (sha : String → String) (n : Node)
    (res : Except String (Option FetchResponse))
    (hfail : (∃ e, res = .error e) ∨ res = .ok none ∨
             (∃ r, res = .ok (some r) ∧ r.error.getD "" ≠ "")) :
    (NodeScanner.scan_node sha n res).1.1 = [] ∧
    (NodeScanner.scan_node sha n res).2.data.scanned = true ∧
    (NodeScanner.scan_node sha n res).2.data.response_status
      = n.data.response_status := by
  obtain ⟨e, rfl⟩ | rfl | ⟨r, rfl, hr⟩ := hfail
  · exact ⟨rfl, rfl, rfl⟩
  · exact ⟨rfl, rfl, rfl⟩
  · unfold NodeScanner.scan_node
    dsimp only
    rw [if_pos hr]
    exact ⟨rfl, rfl, rfl⟩

/-- Witness for C4 at a concrete truthy-error response. -/
theorem scan_node_failure_marks_scanned_witness :
    exRespTimeout.error.getD "" ≠ "" ∧
    (NodeScanner.scan_node (fun _ => "") exScanNode
        (.ok (some exRespTimeout))).1.1 = [] ∧
    (NodeScanner.scan_node (fun _ => "") exScanNode
        (.ok (some exRespTimeout))).2.data.scanned = true ∧
    (NodeScanner.scan_node (fun _ => "") exScanNode
        (.ok (some exRespTimeout))).2.data.response_status
      = exScanNode.data.response_status :=
  ⟨by decide, scan_node_failure_marks_scanned (fun _ => "") exScanNode _
      (Or.inr (Or.inr ⟨exRespTimeout, rfl, by decide⟩))⟩

/-! ## C2 — retry behavior of AsyncDriver.fetch -/

/-- fetch consumes any run of should_retry failures: k leading retryable
failures produce exactly k retries, each preceded by a sleep of
retry_delay (default 1.0), before the next attempt's response is
returned. -/
theorem fetch_consumes_retryable_failures (url msg : String) (rd : Option ℚ)
    (a : AttemptOutcome) (rest : List AttemptOutcome) (r : FetchResponse)
    (h : attemptResponse url a = some r) :
    ∀ k : ℕ, AsyncDriver.fetch url
        (List.replicate k (.failure msg true rd) ++ a :: rest)
      = some (r, k, List.replicate k (rd.getD 1)) := by
  intro k
  induction k with
  | zero =>
    simp only [List.replicate, List.nil_append]
    unfold AsyncDriver.fetch
    cases a with
    | cancelled reason =>
      simp only [attemptResponse, Option.some.injEq] at h
      simp [h]
    | success respUrl html status headers err chain =>
      simp only [attemptResponse, Option.some.injEq] at h
      simp [h]
    | failure m b rdel =>
      cases b with
      | true => simp [attemptResponse] at h
      | false =>
        simp only [attemptResponse, Bool.false_eq_true, if_false,
          Option.some.injEq] at h
        simp [h]
  | succ k ih =>
    rw [List.replicate_succ, List.cons_append]
    unfold AsyncDriver.fetch
    dsimp only
    rw [ih]
    simp [List.replicate_succ]

/-- C2 counterexample: the claim bounds the retries of one fetch by a
configured maximum, but driver.py re-enters fetch with no counter — no
bound m works for every environment. -/
theorem fetch_retries_not_bounded_counterexample :
    ¬ ∃ m : ℕ, ∀ (env : List AttemptOutcome) (url : String)
        (r : FetchResponse) (k : ℕ) (ds : List ℚ),
        AsyncDriver.fetch url env = some (r, k, ds) → k ≤ m := by
  rintro ⟨m, hm⟩
  have h := fetch_consumes_retryable_failures "https://example.com" "boom" none
      (.success "https://example.com" none 200 [] none []) [] _ rfl (m + 1)
  exact absurd (hm _ _ _ _ _ h) (by omega)

/-- C2 amended: when a driver plugin sets should_retry after a request
failure, fetch sleeps for retry_delay (ctx.data value, default 1.0) and
retries; the retry count equals the number of consecutive retryable
failures and is NOT bounded by any configured maximum — this holds for
every k. -/
theorem fetch_retry_sleeps_and_is_unbounded (url msg : String) (rd : Option ℚ)
    (a : AttemptOutcome) (rest : List AttemptOutcome) (r : FetchResponse)
    (k : ℕ) (h : attemptResponse url a = some r) :
    AsyncDriver.fetch url (List.replicate k (.failure msg true rd) ++ a :: rest)
      = some (r, k, List.replicate k (rd.getD 1)) :=
  fetch_consumes_retryable_failures url msg rd a rest r h k

/-- Witness for C2: three retryable failures with a 2-second retry_delay,
then success: three retries, three 2-second sleeps. -/
theorem fetch_retry_sleeps_and_is_unbounded_witness :
    AsyncDriver.fetch "https://example.com"
        (List.replicate 3 (.failure "timeout" true (some 2)) ++
          [.success "https://example.com" (some "<html></html>") 200 [] none []])
      = some ({ url := "https://example.com", html := some "<html></html>",
                status_code := some 200, headers := [], error := none,
                final_url := none, redirect_chain := [] }, 3,
              List.replicate 3 2) :=
  fetch_retry_sleeps_and_is_unbounded "https://example.com" "timeout" (some 2)
    (.success "https://example.com" (some "<html></html>") 200 [] none []) []
    _ 3 (by simp [attemptResponse])

/-! ## C3 — fetch_many order and error conversion -/

/-- C3: fetch_many returns one response per input URL, in input order; the
i-th response carries the i-th URL (given that fetch returns the
requested url, which the fetch model guarantees); a per-URL exception
becomes a response whose error is non-nil (gather(return_exceptions=True)
plus the conversion loop), never a raise. -/
theorem fetch_many_preserves_order_and_converts_errors
    (fetchFn : ℕ → String → Except String FetchResponse) (urls : List String)
    (hok : ∀ i u r, fetchFn i u = .ok r → r.url = u) :
    (AsyncDriver.fetch_many fetchFn urls).length = urls.length ∧
    ∀ (i : ℕ) (h1 : i < urls.length)
      (h2 : i < (AsyncDriver.fetch_many fetchFn urls).length),
      ((AsyncDriver.fetch_many fetchFn urls).get ⟨i, h2⟩).url = urls.get ⟨i, h1⟩ ∧
      ∀ e, fetchFn i (urls.get ⟨i, h1⟩) = .error e →
        ((AsyncDriver.fetch_many fetchFn urls).get ⟨i, h2⟩).error = some e := by
  by_cases hnil : urls = []
  · subst hnil
    refine ⟨rfl, ?_⟩
    intro i h1 _
    exact absurd h1 (by simp)
  · unfold AsyncDriver.fetch_many
    rw [if_neg hnil]
    constructor
    · simp [List.enum_length]
    · intro i h1 h2
      have henum : i < urls.enum.length := by
        simpa [List.enum_length] using h1
      have hget : ((urls.enum.map fun iu =>
          match fetchFn iu.1 iu.2 with
          | .ok r => r
          | .error e =>
            { url := iu.2, html := none, status_code := none, headers := [],
              error := some e } : List FetchResponse).get ⟨i, h2⟩)
          = match fetchFn i (urls.get ⟨i, h1⟩) with
            | .ok r => r
            | .error e =>
              { url := urls.get ⟨i, h1⟩, html := none, status_code := none,
                headers := [], error := some e } := by
        rw [List.get_map]
        simp only [List.get_eq_getElem, List.getElem_enum]
      refine ⟨?_, ?_⟩
      · rw [hget]
        cases hf : fetchFn i (urls.get ⟨i, h1⟩) with
        | ok r =>
          have := hok i (urls.get ⟨i, h1⟩) r hf
          simpa using this
        | error e => rfl
      · intro e he
        rw [hget, he]

/-- Witness for C3 with a fetch function that echoes the url. -/
theorem fetch_many_preserves_order_and_converts_errors_witness :
    (∀ i u r, (fun (_ : ℕ) (u : String) =>
        (.ok { url := u } : Except String FetchResponse)) i u = .ok r →
        r.url = u) ∧
    (AsyncDriver.fetch_many
        (fun (_ : ℕ) (u : String) => (.ok { url := u } : Except String FetchResponse))
        ["https://a.com", "https://b.com"]).length = 2 :=
  ⟨fun _ _ r h => by cases h; rfl,
   (fetch_many_preserves_order_and_converts_errors
      (fun _ u => .ok { url := u }) ["https://a.com", "https://b.com"]
      (fun _ _ r h => by cases h; rfl)).1⟩

/-! ## C5 — content hash strategy contract -/

/-- C5: for a node at HTML_STAGE with a custom strategy on its first use
(determinism not yet validated): an invalid first digest raises; a valid
first digest with a different second digest raises after exactly two
invocations; a valid digest equal on both invocations is returned, the
node recording two strategy calls and the validated flag. An invalid
second digest differs from the valid first one, so it raises too. -/
theorem get_content_hash_strategy_contract (sha : String → String) (n : Node)
    (strat : NodeData → ℕ → String)
    (hs : n.hash_strategy = some strat)
    (hstage : n.data.lifecycle_stage = NodeLifecycle.html_stage)
    (hfirst : n.hash_determinism_validated = false) :
    (isSha256Hex (strat n.data n.strategy_calls) = false →
      ∃ m n2, n.get_content_hash sha = .error (m, n2)) ∧
    (isSha256Hex (strat n.data n.strategy_calls) = true →
      strat n.data n.strategy_calls ≠ strat n.data (n.strategy_calls + 1) →
      ∃ m n2, n.get_content_hash sha = .error (m, n2) ∧
        n2.strategy_calls = n.strategy_calls + 2) ∧
    (isSha256Hex (strat n.data n.strategy_calls) = true →
      strat n.data n.strategy_calls = strat n.data (n.strategy_calls + 1) →
      n.get_content_hash sha = .ok (strat n.data n.strategy_calls,
        { n with strategy_calls := n.strategy_calls + 2,
                 hash_determinism_validated := true })) := by
  unfold Node.get_content_hash
  rw [if_neg (by simp [hstage]), hs]
  dsimp only
  refine ⟨?_, ?_, ?_⟩
  · intro hbad
    rw [hbad]
    exact ⟨_, _, rfl⟩
  · intro hgood hne
    rw [hgood, hfirst]
    simp only [Bool.not_true, Bool.false_eq_true, if_false, Bool.not_false,
      if_true]
    rw [if_pos hne]
    exact ⟨_, _, rfl, rfl⟩
  · intro hgood heq
    rw [hgood, hfirst]
    simp only [Bool.not_true, Bool.false_eq_true, if_false, Bool.not_false,
      if_true]
    rw [if_neg (by simpa using heq)]

/-- Witness for C5: the deterministic valid strategy yields its digest and
two recorded invocations. -/
theorem get_content_hash_strategy_contract_witness :
    exHashNode.hash_strategy = some exStrat ∧
    isSha256Hex (exStrat exHashNode.data 0) = true ∧
    Node.get_content_hash (fun _ => "") exHashNode
      = .ok (exStrat exHashNode.data exHashNode.strategy_calls,
          { exHashNode with strategy_calls := exHashNode.strategy_calls + 2,
                            hash_determinism_validated := true }) :=
  ⟨rfl, by decide,
   (get_content_hash_strategy_contract (fun _ => "") exHashNode exStrat rfl rfl
      rfl).2.2 (by decide) rfl⟩

/-! ## C6 — plugin stage order and registration order -/

/-- _compute_content_hash never touches user_data (it writes only
content_hash and the strategy bookkeeping). -/
theorem computeContentHash_user_data (sha : String → String) (m : Node) :
    (computeContentHash sha m).data.user_data = m.data.user_data := by
  unfold computeContentHash Node.get_content_hash
  by_cases h1 : m.data.lifecycle_stage ≠ NodeLifecycle.html_stage
  · rw [if_pos h1]
  · rw [if_neg h1]
    cases hs : m.hash_strategy with
    | none => rfl
    | some strat =>
      dsimp only
      cases hv : isSha256Hex (strat m.data m.strategy_calls) with
      | false => rfl
      | true =>
        cases hval : m.hash_determinism_validated with
        | true => rfl
        | false =>
          by_cases hne : strat m.data m.strategy_calls
              = strat m.data (m.strategy_calls + 1)
          · rw [if_neg (not_not_intro hne)]; rfl
          · rw [if_pos hne]; rfl

/-- C6: process_html on a fresh node with a plugin manager threads one
context through the stages in the fixed order ON_BEFORE_SCAN →
ON_HTML_PARSED → metadata write-back → ON_AFTER_SCAN (the returned links
are the final context's), and within a stage plugins run in registration
order: with two ON_AFTER_SCAN plugins writing the same user_data key, the
later-registered value is the one left on the node. -/
theorem process_html_stage_and_registration_order (sha : String → String)
    (n : Node) (pm : NodePluginManager) (A : List NodePlugin)
    (k v1 v2 : String) (html : String)
    (hstage : n.data.lifecycle_stage = NodeLifecycle.url_stage)
    (hpm : n.plugin_manager = some pm)
    (hafter : pm.on_after_scan = A ++ [writeUserData k v1, writeUserData k v2]) :
    (n.process_html sha html).1 =
      (execStage pm.on_after_scan
        (execStage pm.on_html_parsed
          (execStage pm.on_before_scan
            (initialContext
              { n.data with lifecycle_stage := NodeLifecycle.html_stage }
              (n.treeParser.getD defaultParser) html
              (n.treeParser.getD defaultParser html))))).extracted_links ∧
    (n.process_html sha html).2.data.user_data k = some v2 := by
  have hnot : ¬ n.data.lifecycle_stage = NodeLifecycle.html_stage := by
    rw [hstage]; decide
  unfold Node.process_html
  rw [if_neg hnot]
  unfold executePlugins
  rw [hpm]
  dsimp only
  refine ⟨rfl, ?_⟩
  rw [computeContentHash_user_data]
  rw [hafter]
  unfold execStage
  rw [List.foldl_append]
  simp only [List.foldl_cons, List.foldl_nil, writeUserData]
  simp [Dict.update, Dict.insert]

/-- Witness for C6: a concrete node, an empty prefix of ON_AFTER_SCAN
plugins, first write "a" then "b": the node keeps "b". -/
theorem process_html_stage_and_registration_order_witness :
    exPluginNode.data.lifecycle_stage = NodeLifecycle.url_stage ∧
    (Node.process_html (fun _ => "") exPluginNode
      "<html></html>").2.data.user_data "tag" = some "b" :=
  ⟨rfl,
   (process_html_stage_and_registration_order (fun _ => "") exPluginNode
      exAfterPM [] "tag" "a" "b" "<html></html>" rfl rfl rfl).2⟩

/-! ## C10 — Node ↔ NodeDTO round trip -/

/-- C10: to_domain ∘ to_dto is the identity on every serialized field
(the whole NodeData), and with no context the reconstructed node's
plugin_manager, treeParser and hash_strategy are None. The hypotheses
are the pydantic validations every constructed Node already satisfies. -/
theorem node_dto_roundtrip (n : Node)
    (hurl : validateNodeUrl n.data.url = .ok n.data.url)
    (hpri : priorityOk n.data.priority = true) :
    ∃ n2 : Node, NodeMapper.to_domain (NodeMapper.to_dto n) none = .ok n2 ∧
      n2.data = n.data ∧ n2.plugin_manager = none ∧
      n2.treeParser = none ∧ n2.hash_strategy = none := by
  refine ⟨{ data := n.data }, ?_, rfl, rfl, rfl, rfl⟩
  unfold NodeMapper.to_domain NodeMapper.to_dto
  have hlc : NodeLifecycle.ofValue n.data.lifecycle_stage.value
      = .ok n.data.lifecycle_stage := by
    cases n.data.lifecycle_stage <;> rfl
  dsimp only
  rw [hlc]
  unfold mkNode
  dsimp only
  rw [hurl, hpri]
  rfl

/-- Witness for C10 at a fully populated concrete node. -/
theorem node_dto_roundtrip_witness :
    validateNodeUrl exMapNode.data.url = .ok exMapNode.data.url ∧
    priorityOk exMapNode.data.priority = true ∧
    ∃ n2 : Node, NodeMapper.to_domain (NodeMapper.to_dto exMapNode) none = .ok n2 ∧
      n2.data = exMapNode.data ∧ n2.plugin_manager = none ∧
      n2.treeParser = none ∧ n2.hash_strategy = none :=
  ⟨rfl, rfl, node_dto_roundtrip exMapNode rfl rfl⟩

/-! ## C9 — URL normalization

Support lemmas: character facts, splitting lemmas, parse invariants, the
reparse of an unsplit host URL, and idempotence of the params round trip. -/

theorem toNat_ofNat_of_valid (n : ℕ) (h : n.isValidChar) :
    (Char.ofNat n).toNat = n := by
  rw [Char.ofNat, dif_pos h]
  rfl

theorem toNat_toLower (c : Char) :
    c.toLower.toNat
      = if 65 ≤ c.toNat ∧ c.toNat ≤ 90 then c.toNat + 32 else c.toNat := by
  unfold Char.toLower
  dsimp only
  split
  · next h =>
    rw [toNat_ofNat_of_valid _ (Or.inl (by omega))]
  · next h =>
    rfl

theorem toLower_eq_self_of_not_upper (c : Char)
    (h : ¬ (65 ≤ c.toNat ∧ c.toNat ≤ 90)) : c.toLower = c := by
  unfold Char.toLower
  dsimp only
  rw [if_neg (by omega)]

theorem toLower_toLower (c : Char) : c.toLower.toLower = c.toLower := by
  by_cases h : 65 ≤ c.toNat ∧ c.toNat ≤ 90
  · apply toLower_eq_self_of_not_upper
    rw [toNat_toLower, if_pos h]
    omega
  · rw [toLower_eq_self_of_not_upper c h, toLower_eq_self_of_not_upper c h]

theorem isUpper_iff_toNat (c : Char) :
    c.isUpper = true ↔ 65 ≤ c.toNat ∧ c.toNat ≤ 90 := by
  unfold Char.isUpper
  simp only [Bool.and_eq_true, decide_eq_true_eq, ge_iff_le]
  rw [UInt32.le_def, BitVec.le_def, UInt32.le_def, BitVec.le_def]
  exact Iff.rfl

theorem isLower_iff_toNat (c : Char) :
    c.isLower = true ↔ 97 ≤ c.toNat ∧ c.toNat ≤ 122 := by
  unfold Char.isLower
  simp only [Bool.and_eq_true, decide_eq_true_eq, ge_iff_le]
  rw [UInt32.le_def, BitVec.le_def, UInt32.le_def, BitVec.le_def]
  exact Iff.rfl

theorem isAlpha_iff_toNat (c : Char) :
    c.isAlpha = true ↔
      (65 ≤ c.toNat ∧ c.toNat ≤ 90) ∨ (97 ≤ c.toNat ∧ c.toNat ≤ 122) := by
  unfold Char.isAlpha
  rw [Bool.or_eq_true, isUpper_iff_toNat, isLower_iff_toNat]

theorem isDigit_iff_toNat (c : Char) :
    c.isDigit = true ↔ 48 ≤ c.toNat ∧ c.toNat ≤ 57 := by
  unfold Char.isDigit
  simp only [Bool.and_eq_true, decide_eq_true_eq, ge_iff_le]
  rw [UInt32.le_def, BitVec.le_def, UInt32.le_def, BitVec.le_def]
  exact Iff.rfl

theorem isAlpha_toLower (c : Char) (h : c.isAlpha = true) :
    c.toLower.isAlpha = true := by
  rw [isAlpha_iff_toNat] at h ⊢
  rw [toNat_toLower]
  rcases h with h | h
  · rw [if_pos (by omega)]; omega
  · rw [if_neg (by omega)]; omega

theorem isAlpha_gt_32 (c : Char) (h : c.isAlpha = true) : 32 < c.toNat := by
  rw [isAlpha_iff_toNat] at h
  omega

theorem schemeChar_elim (c : Char) (h : schemeChar c = true) :
    c.isAlpha = true ∨ c.isDigit = true ∨ c = '+' ∨ c = '-' ∨ c = '.' := by
  unfold schemeChar at h
  simp only [Bool.or_eq_true, decide_eq_true_eq] at h
  tauto

theorem schemeChar_toNat (c : Char) (h : schemeChar c = true) :
    (65 ≤ c.toNat ∧ c.toNat ≤ 90) ∨ (97 ≤ c.toNat ∧ c.toNat ≤ 122) ∨
    (48 ≤ c.toNat ∧ c.toNat ≤ 57) ∨ c.toNat = 43 ∨ c.toNat = 45 ∨
    c.toNat = 46 := by
  rcases schemeChar_elim c h with h | h | rfl | rfl | rfl
  · rw [isAlpha_iff_toNat] at h; tauto
  · rw [isDigit_iff_toNat] at h; tauto
  · right; right; right; left; rfl
  · right; right; right; right; left; rfl
  · right; right; right; right; right; rfl

theorem toNat_eq_of_eq {c d : Char} (h : c = d) : c.toNat = d.toNat := by
  rw [h]

theorem schemeChar_not_special (c : Char) (h : schemeChar c = true) :
    c ≠ ':' ∧ c ≠ '/' ∧ c ≠ '?' ∧ c ≠ '#' ∧
    isUnsafeUrlByte c = false ∧ isC0OrSpace c = false := by
  have hn := schemeChar_toNat c h
  refine ⟨?_, ?_, ?_, ?_, ?_, ?_⟩
  · intro he; have hv : c.toNat = 58 := by rw [he]; rfl
    omega
  · intro he; have hv : c.toNat = 47 := by rw [he]; rfl
    omega
  · intro he; have hv : c.toNat = 63 := by rw [he]; rfl
    omega
  · intro he; have hv : c.toNat = 35 := by rw [he]; rfl
    omega
  · unfold isUnsafeUrlByte
    have h1 : c ≠ '\t' := by
      intro he; have hv : c.toNat = 9 := by rw [he]; rfl
      omega
    have h2 : c ≠ '\r' := by
      intro he; have hv : c.toNat = 13 := by rw [he]; rfl
      omega
    have h3 : c ≠ '\n' := by
      intro he; have hv : c.toNat = 10 := by rw [he]; rfl
      omega
    simp [h1, h2, h3]
  · unfold isC0OrSpace
    simp only [decide_eq_false_iff_not, not_le]
    omega

theorem schemeChar_toLower (c : Char) (h : schemeChar c = true) :
    schemeChar c.toLower = true := by
  rcases schemeChar_elim c h with ha | hd | rfl | rfl | rfl
  · unfold schemeChar
    rw [isAlpha_toLower c ha]
    rfl
  · rw [isDigit_iff_toNat] at hd
    rw [toLower_eq_self_of_not_upper c (by omega)]
    exact h
  · exact h
  · exact h
  · exact h

theorem takeWhile_append_all {α : Type} (P : α → Bool) (u v : List α)
    (h : ∀ x ∈ u, P x = true) :
    (u ++ v).takeWhile P = u ++ v.takeWhile P := by
  induction u with
  | nil => simp
  | cons a t ih =>
    have ha : P a = true := h a (List.mem_cons_self a t)
    simp only [List.cons_append, List.takeWhile_cons, ha, if_true]
    rw [ih (fun x hx => h x (List.mem_cons_of_mem a hx))]

theorem dropWhile_append_all {α : Type} (P : α → Bool) (u v : List α)
    (h : ∀ x ∈ u, P x = true) :
    (u ++ v).dropWhile P = v.dropWhile P := by
  induction u with
  | nil => simp
  | cons a t ih =>
    have ha : P a = true := h a (List.mem_cons_self a t)
    simp only [List.cons_append, List.dropWhile_cons, ha, if_true]
    exact ih (fun x hx => h x (List.mem_cons_of_mem a hx))

theorem takeWhile_eq_nil_of_head {α : Type} (P : α → Bool) (v : List α)
    (h : ∀ c, v.head? = some c → P c = false) : v.takeWhile P = [] := by
  cases v with
  | nil => rfl
  | cons a t =>
    have := h a rfl
    simp [List.takeWhile_cons, this]

theorem dropWhile_eq_self_of_head {α : Type} (P : α → Bool) (v : List α)
    (h : ∀ c, v.head? = some c → P c = false) : v.dropWhile P = v := by
  cases v with
  | nil => rfl
  | cons a t =>
    have := h a rfl
    simp [List.dropWhile_cons, this]

theorem mem_of_mem_takeWhile {α : Type} {P : α → Bool} {l : List α} {a : α}
    (h : a ∈ l.takeWhile P) : a ∈ l := by
  have := List.takeWhile_append_dropWhile P l
  rw [← this]
  exact List.mem_append_left _ h

theorem dropWhile_head_false {α : Type} (P : α → Bool) (l : List α) :
    ∀ c, (l.dropWhile P).head? = some c → P c = false := by
  induction l with
  | nil => intro c hc; simp at hc
  | cons a t ih =>
    intro c hc
    by_cases hP : P a = true
    · rw [List.dropWhile_cons, if_pos hP] at hc
      exact ih c hc
    · rw [List.dropWhile_cons, if_neg hP] at hc
      simp only [List.head?_cons, Option.some.injEq] at hc
      rw [← hc]
      exact Bool.not_eq_true _ ▸ Bool.eq_false_iff.mpr hP

theorem takeWhile_ne_append (sep : Char) (u w : List Char) (h : sep ∉ u) :
    (u ++ sep :: w).takeWhile (· ≠ sep) = u := by
  rw [takeWhile_append_all _ u (sep :: w)
      (fun x hx => by simp; intro he; exact h (he ▸ hx))]
  rw [takeWhile_eq_nil_of_head _ (sep :: w)
      (fun c hc => by simp at hc; simp [hc])]
  simp

theorem drop_after_sep (sep : Char) (u w : List Char) :
    (u ++ sep :: w).drop (u.length + 1) = w := by
  have heq : u ++ sep :: w = (u ++ [sep]) ++ w := by simp
  rw [heq]
  have hlen : u.length + 1 = (u ++ [sep]).length := by simp
  rw [hlen, List.drop_left]

theorem splitTail_of_not_mem (sep : Char) (l : List Char) (h : sep ∉ l) :
    splitTail sep l = (l, []) := by
  unfold splitTail
  have ht : l.takeWhile (· ≠ sep) = l := by
    rw [List.takeWhile_eq_self_iff]
    intro x hx
    simp [ne_eq]
    intro he; exact h (he ▸ hx)
  rw [ht]
  dsimp only
  rw [List.drop_eq_nil_of_le (by omega)]

theorem splitTail_append (sep : Char) (u w : List Char) (h : sep ∉ u) :
    splitTail sep (u ++ sep :: w) = (u, w) := by
  unfold splitTail
  rw [takeWhile_ne_append sep u w h]
  dsimp only
  rw [drop_after_sep]

theorem splitTail_mem_spec (sep : Char) (l : List Char) (h : sep ∈ l) :
    ∃ x y, l = x ++ sep :: y ∧ sep ∉ x ∧ splitTail sep l = (x, y) := by
  have hx : sep ∉ l.takeWhile (· ≠ sep) := by
    intro hm
    have := List.mem_takeWhile_imp hm
    simp at this
  have hd : ∃ t, l.dropWhile (· ≠ sep) = sep :: t := by
    cases hcase : l.dropWhile (· ≠ sep) with
    | nil =>
      exfalso
      have hsplit := List.takeWhile_append_dropWhile (· ≠ sep) l
      rw [hcase, List.append_nil] at hsplit
      rw [← hsplit] at h
      exact hx h
    | cons d t =>
      have hdf := dropWhile_head_false (· ≠ sep) l d (by rw [hcase]; rfl)
      simp at hdf
      exact ⟨t, by rw [hdf]⟩
  obtain ⟨t, ht⟩ := hd
  have hsplit := List.takeWhile_append_dropWhile (· ≠ sep) l
  rw [ht] at hsplit
  refine ⟨l.takeWhile (· ≠ sep), t, hsplit.symm, hx, ?_⟩
  conv_lhs => rw [← hsplit]
  exact splitTail_append sep _ t hx

theorem extractScheme_of_head_not_alpha (l : List Char)
    (h : ∀ c, l.head? = some c → c.isAlpha = false) :
    extractScheme l = ([], l) := by
  cases l with
  | nil => rfl
  | cons c cs =>
    have hc := h c rfl
    unfold extractScheme
    dsimp only
    rw [if_neg (by simp [hc])]

theorem extractScheme_scheme_led (s rest : List Char) (hne : s ≠ [])
    (halpha : ∀ c, s.head? = some c → c.isAlpha = true)
    (hall : ∀ x ∈ s, schemeChar x = true)
    (hlow : s.map Char.toLower = s) :
    extractScheme (s ++ ':' :: rest) = (s, rest) := by
  have hcolon : ':' ∉ s := fun hm =>
    absurd (hall ':' hm) (by decide)
  cases s with
  | nil => exact absurd rfl hne
  | cons a t =>
    rw [List.cons_append]
    unfold extractScheme
    dsimp only
    rw [← List.cons_append, takeWhile_ne_append ':' (a :: t) rest hcolon]
    rw [if_pos ?cond]
    case cond =>
      have ha := halpha a rfl
      simp only [Bool.and_eq_true, decide_eq_true_eq]
      refine ⟨⟨⟨by simp, by simp⟩, ha⟩, ?_⟩
      rw [List.all_eq_true]
      exact hall
    rw [hlow]
    rw [drop_after_sep]

theorem splitNetloc_slash2 (n rest : List Char)
    (hn : ∀ c ∈ n, netlocDelim c = false)
    (hrest : ∀ c, rest.head? = some c → netlocDelim c = true) :
    splitNetloc ('/' :: '/' :: (n ++ rest)) = (n, rest) := by
  have h1 : (n ++ rest).takeWhile (fun c => !netlocDelim c) = n := by
    rw [takeWhile_append_all _ n rest (fun x hx => by simp [hn x hx])]
    rw [takeWhile_eq_nil_of_head _ rest (fun c hc => by simp [hrest c hc])]
    simp
  have h2 : (n ++ rest).dropWhile (fun c => !netlocDelim c) = rest := by
    rw [dropWhile_append_all _ n rest (fun x hx => by simp [hn x hx])]
    exact dropWhile_eq_self_of_head _ rest (fun c hc => by simp [hrest c hc])
  have hdef : splitNetloc ('/' :: '/' :: (n ++ rest))
      = ((n ++ rest).takeWhile (fun c => !netlocDelim c),
         (n ++ rest).dropWhile (fun c => !netlocDelim c)) := rfl
  rw [hdef, h1, h2]

theorem cleanUrl_eq_self (l : List Char)
    (hu : ∀ c ∈ l, isUnsafeUrlByte c = false)
    (hh : ∀ c, l.head? = some c → isC0OrSpace c = false) :
    cleanUrl l = l := by
  unfold cleanUrl
  rw [dropWhile_eq_self_of_head _ l hh]
  exact List.filter_eq_self.mpr (fun a ha => by simp [hu a ha])

theorem afterLastSlash_not_mem (p : List Char) : '/' ∉ afterLastSlash p := by
  unfold afterLastSlash
  intro hm
  rw [List.mem_reverse] at hm
  have := List.mem_takeWhile_imp hm
  simp at this

theorem mem_of_mem_afterLastSlash {c : Char} {p : List Char}
    (h : c ∈ afterLastSlash p) : c ∈ p := by
  unfold afterLastSlash at h
  rw [List.mem_reverse] at h
  have := mem_of_mem_takeWhile h
  rwa [List.mem_reverse] at this

theorem afterLastSlash_append (a b : List Char) (hb : '/' ∉ b) :
    afterLastSlash (a ++ '/' :: b) = b := by
  unfold afterLastSlash
  rw [List.reverse_append, List.reverse_cons, List.append_assoc]
  rw [takeWhile_append_all _ b.reverse _ (fun x hx => by
    rw [List.mem_reverse] at hx
    simp
    intro he; exact hb (he ▸ hx))]
  rw [takeWhile_eq_nil_of_head _ _ (fun c hc => by
    simp only [List.cons_append, List.head?_cons, Option.some.injEq] at hc
    simp [← hc])]
  simp

theorem afterLastSlash_decomp (p : List Char) (h : '/' ∈ p) :
    ∃ a, p = a ++ '/' :: afterLastSlash p ∧
      p.take (p.length - (afterLastSlash p).length - 1) = a := by
  have hr : '/' ∈ p.reverse := List.mem_reverse.mpr h
  obtain ⟨x, y, hxy, hx, _⟩ := splitTail_mem_spec '/' p.reverse hr
  have hals : afterLastSlash p = x.reverse := by
    unfold afterLastSlash
    rw [hxy, takeWhile_ne_append '/' x y hx]
  have hp : p = y.reverse ++ '/' :: x.reverse := by
    conv_lhs => rw [← List.reverse_reverse p, hxy]
    rw [List.reverse_append, List.reverse_cons, List.append_assoc]
    simp
  refine ⟨y.reverse, by rw [hals]; exact hp, ?_⟩
  rw [hals]
  have hlen : p.length - x.reverse.length - 1 = y.reverse.length := by
    rw [hp]
    simp only [List.length_append, List.length_cons, List.length_reverse]
    omega
  rw [hlen]
  conv_lhs => rw [hp]
  exact List.take_left y.reverse ('/' :: x.reverse)

theorem splitParams_no_semi (p : List Char) (h : ';' ∉ p) :
    splitParams p = (p, []) := by
  unfold splitParams
  rw [if_neg h]

theorem splitParams_no_slash (p : List Char) (hsl : '/' ∉ p) (hs : ';' ∈ p) :
    splitParams p = splitTail ';' p := by
  unfold splitParams
  rw [if_pos hs, if_neg hsl]

theorem splitParams_no_semi_after (p : List Char) (hsl : '/' ∈ p)
    (hsb : ';' ∉ afterLastSlash p) : splitParams p = (p, []) := by
  unfold splitParams
  by_cases hs : ';' ∈ p
  · rw [if_pos hs, if_pos hsl]
    dsimp only
    rw [if_neg hsb]
  · rw [if_neg hs]

theorem splitParams_slash_semi (p : List Char) (hsl : '/' ∈ p)
    (hsb : ';' ∈ afterLastSlash p) :
    splitParams p
      = (p.take (p.length - (afterLastSlash p).length - 1)
          ++ '/' :: (splitTail ';' (afterLastSlash p)).1,
         (splitTail ';' (afterLastSlash p)).2) := by
  have hs : ';' ∈ p := mem_of_mem_afterLastSlash hsb
  unfold splitParams
  rw [if_pos hs, if_pos hsl]
  dsimp only
  rw [if_pos hsb]

theorem ppP_eq_of_nil (p x : List Char) (h : splitParams p = (x, [])) :
    ppP p = x := by
  unfold ppP
  rw [h]
  dsimp only
  rw [if_neg (fun hc => hc rfl)]

theorem ppP_eq_of_params (p x y : List Char) (h : splitParams p = (x, y))
    (hy : y ≠ []) : ppP p = x ++ ';' :: y := by
  unfold ppP
  rw [h]
  dsimp only
  rw [if_pos hy]

theorem ppP_or (p : List Char) : ppP p = p ∨ ppP p ++ [';'] = p := by
  by_cases hsemi : ';' ∈ p
  · by_cases hslash : '/' ∈ p
    · by_cases hsb : ';' ∈ afterLastSlash p
      · obtain ⟨x, y, hxy, hx, hst⟩ := splitTail_mem_spec ';' (afterLastSlash p) hsb
        obtain ⟨a, hpa, hta⟩ := afterLastSlash_decomp p hslash
        have hsp : splitParams p = (a ++ '/' :: x, y) := by
          rw [splitParams_slash_semi p hslash hsb, hst, hta]
        by_cases hy : y = []
        · subst hy
          right
          rw [ppP_eq_of_nil p _ hsp, hpa, hxy]
          simp
        · left
          rw [ppP_eq_of_params p _ y hsp hy, hpa, hxy]
          simp
      · left
        exact ppP_eq_of_nil p p (splitParams_no_semi_after p hslash hsb)
    · obtain ⟨x, y, hxy, hx, hst⟩ := splitTail_mem_spec ';' p hsemi
      have hsp : splitParams p = (x, y) := by
        rw [splitParams_no_slash p hslash hsemi, hst]
      by_cases hy : y = []
      · subst hy
        right
        rw [ppP_eq_of_nil p x hsp, hxy]
      · left
        rw [ppP_eq_of_params p x y hsp hy, hxy]
  · left
    exact ppP_eq_of_nil p p (splitParams_no_semi p hsemi)

theorem ppP_mem {c : Char} {p : List Char} (h : c ∈ ppP p) : c ∈ p := by
  rcases ppP_or p with he | he
  · rwa [he] at h
  · rw [← he]
    exact List.mem_append_left _ h

theorem ppP_head_eq (p : List Char) (h : ppP p ≠ []) :
    (ppP p).head? = p.head? := by
  rcases ppP_or p with he | he
  · rw [he]
  · cases hcase : ppP p with
    | nil => exact absurd hcase h
    | cons a t =>
      rw [hcase] at he
      rw [← he, List.cons_append, List.head?_cons, List.head?_cons]

theorem ppP_idem (p : List Char) : ppP (ppP p) = ppP p := by
  by_cases hsemi : ';' ∈ p
  · by_cases hslash : '/' ∈ p
    · by_cases hsb : ';' ∈ afterLastSlash p
      · obtain ⟨x, y, hxy, hx, hst⟩ := splitTail_mem_spec ';' (afterLastSlash p) hsb
        obtain ⟨a, hpa, hta⟩ := afterLastSlash_decomp p hslash
        have hsp : splitParams p = (a ++ '/' :: x, y) := by
          rw [splitParams_slash_semi p hslash hsb, hst, hta]
        by_cases hy : y = []
        · subst hy
          have h1 : ppP p = a ++ '/' :: x := ppP_eq_of_nil p _ hsp
          rw [h1]
          have hxs : '/' ∉ x := fun hm =>
            afterLastSlash_not_mem p (by rw [hxy]; exact List.mem_append_left _ hm)
          have hsl2 : '/' ∈ a ++ '/' :: x :=
            List.mem_append_right _ (List.mem_cons_self _ _)
          have hnosemi : ';' ∉ afterLastSlash (a ++ '/' :: x) := by
            rw [afterLastSlash_append a x hxs]
            exact hx
          exact ppP_eq_of_nil _ _ (splitParams_no_semi_after _ hsl2 hnosemi)
        · have h1 : ppP p = p := by
            rw [ppP_eq_of_params p _ y hsp hy, hpa, hxy]
            simp
          rw [h1]
          exact h1
      · have h1 : ppP p = p := ppP_eq_of_nil p p (splitParams_no_semi_after p hslash hsb)
        rw [h1]
        exact h1
    · obtain ⟨x, y, hxy, hx, hst⟩ := splitTail_mem_spec ';' p hsemi
      have hsp : splitParams p = (x, y) := by
        rw [splitParams_no_slash p hslash hsemi, hst]
      by_cases hy : y = []
      · subst hy
        have h1 : ppP p = x := ppP_eq_of_nil p x hsp
        rw [h1]
        exact ppP_eq_of_nil x x (splitParams_no_semi x hx)
      · have h1 : ppP p = p := by
          rw [ppP_eq_of_params p x y hsp hy, hxy]
        rw [h1]
        exact h1
  · have h1 : ppP p = p := ppP_eq_of_nil p p (splitParams_no_semi p hsemi)
    rw [h1]
    exact h1

theorem head_takeWhile {α : Type} (P : α → Bool) (l : List α) {c : α}
    (h : (l.takeWhile P).head? = some c) : l.head? = some c ∧ P c = true := by
  cases l with
  | nil => simp at h
  | cons a t =>
    rw [List.takeWhile_cons] at h
    by_cases hP : P a = true
    · rw [if_pos hP] at h
      simp only [List.head?_cons, Option.some.injEq] at h ⊢
      exact ⟨h, h ▸ hP⟩
    · rw [if_neg hP] at h
      simp at h

theorem mem_of_mem_dropWhile {α : Type} {P : α → Bool} {l : List α} {a : α}
    (h : a ∈ l.dropWhile P) : a ∈ l := by
  have h2 := List.mem_append_right (l.takeWhile P) h
  rwa [List.takeWhile_append_dropWhile] at h2

theorem splitTail_fst_all (sep : Char) (l : List Char) :
    ∀ c ∈ (splitTail sep l).1, c ≠ sep ∧ c ∈ l := by
  intro c hc
  unfold splitTail at hc
  dsimp only at hc
  refine ⟨?_, mem_of_mem_takeWhile hc⟩
  have := List.mem_takeWhile_imp hc
  simpa using this

theorem splitTail_snd_mem (sep : Char) (l : List Char) :
    ∀ c ∈ (splitTail sep l).2, c ∈ l := by
  intro c hc
  unfold splitTail at hc
  dsimp only at hc
  exact List.mem_of_mem_drop hc

theorem splitTail_fst_head (sep : Char) (l : List Char) (c : Char)
    (h : (splitTail sep l).1.head? = some c) :
    l.head? = some c ∧ c ≠ sep := by
  have h' : (l.takeWhile (· ≠ sep)).head? = some c := h
  have h2 := head_takeWhile (· ≠ sep) l h'
  refine ⟨h2.1, ?_⟩
  simpa using h2.2

theorem extractScheme_snd_sublist (l : List Char) :
    ∀ c ∈ (extractScheme l).2, c ∈ l := by
  cases l with
  | nil =>
    intro c hc
    simp [extractScheme] at hc
  | cons a t =>
    unfold extractScheme
    dsimp only
    split
    · intro c hc
      exact List.mem_of_mem_drop hc
    · intro c hc
      exact hc

theorem extractScheme_fst_wf (l : List Char) :
    (extractScheme l).1 = [] ∨
    ((∀ c, (extractScheme l).1.head? = some c → c.isAlpha = true) ∧
     (∀ x ∈ (extractScheme l).1, schemeChar x = true) ∧
     (extractScheme l).1.map Char.toLower = (extractScheme l).1) := by
  cases l with
  | nil => left; rfl
  | cons a t =>
    unfold extractScheme
    dsimp only
    split
    case isTrue h =>
      right
      simp only [Bool.and_eq_true, decide_eq_true_eq] at h
      obtain ⟨⟨⟨hlen, hne⟩, ha⟩, hall⟩ := h
      rw [List.all_eq_true] at hall
      refine ⟨?_, ?_, ?_⟩
      · intro c hc
        rw [List.head?_map] at hc
        cases hp : ((a :: t).takeWhile (· ≠ ':')).head? with
        | none => rw [hp] at hc; simp at hc
        | some d =>
          rw [hp] at hc
          simp at hc
          have hd := head_takeWhile (· ≠ ':') (a :: t) hp
          simp only [List.head?_cons, Option.some.injEq] at hd
          rw [← hc, ← hd.1]
          exact isAlpha_toLower a ha
      · intro x hx
        rw [List.mem_map] at hx
        obtain ⟨d, hd, hdx⟩ := hx
        rw [← hdx]
        exact schemeChar_toLower d (hall d hd)
      · rw [List.map_map]
        apply List.map_congr_left
        intro d _
        exact toLower_toLower d
    case isFalse => left; rfl

theorem isUnsafeUrlByte_toLower (c : Char) (h : isUnsafeUrlByte c = false) :
    isUnsafeUrlByte c.toLower = false := by
  by_cases hu : 65 ≤ c.toNat ∧ c.toNat ≤ 90
  · have hnat : c.toLower.toNat = c.toNat + 32 := by
      rw [toNat_toLower, if_pos hu]
    have h9 : c.toLower ≠ '\t' := fun he => by
      have h1 := toNat_eq_of_eq he
      have h2 : ('\t').toNat = 9 := rfl
      rw [hnat, h2] at h1
      omega
    have h13 : c.toLower ≠ '\r' := fun he => by
      have h1 := toNat_eq_of_eq he
      have h2 : ('\r').toNat = 13 := rfl
      rw [hnat, h2] at h1
      omega
    have h10 : c.toLower ≠ '\n' := fun he => by
      have h1 := toNat_eq_of_eq he
      have h2 : ('\n').toNat = 10 := rfl
      rw [hnat, h2] at h1
      omega
    unfold isUnsafeUrlByte
    simp [h9, h13, h10]
  · rw [toLower_eq_self_of_not_upper c hu]
    exact h

theorem extractScheme_fst_unsafe (l : List Char)
    (hl : ∀ c ∈ l, isUnsafeUrlByte c = false) :
    ∀ c ∈ (extractScheme l).1, isUnsafeUrlByte c = false := by
  cases l with
  | nil =>
    intro c hc
    simp [extractScheme] at hc
  | cons a t =>
    unfold extractScheme
    dsimp only
    split
    · intro c hc
      rw [List.mem_map] at hc
      obtain ⟨d, hd, hdc⟩ := hc
      rw [← hdc]
      exact isUnsafeUrlByte_toLower d (hl d (mem_of_mem_takeWhile hd))
    · intro c hc
      simp at hc

theorem splitNetloc_wf (m : List Char) :
    (∀ c ∈ (splitNetloc m).1, netlocDelim c = false) ∧
    (∀ c ∈ (splitNetloc m).1, c ∈ m) ∧
    (∀ c ∈ (splitNetloc m).2, c ∈ m) ∧
    ((splitNetloc m).1 ≠ [] →
      ∀ c, (splitNetloc m).2.head? = some c → netlocDelim c = true) := by
  unfold splitNetloc
  split
  next rest =>
    refine ⟨?_, ?_, ?_, ?_⟩
    · intro c hc
      have := List.mem_takeWhile_imp hc
      simpa using this
    · intro c hc
      exact List.mem_cons_of_mem _ (List.mem_cons_of_mem _ (mem_of_mem_takeWhile hc))
    · intro c hc
      exact List.mem_cons_of_mem _ (List.mem_cons_of_mem _ (mem_of_mem_dropWhile hc))
    · intro _ c hc
      have := dropWhile_head_false (fun c => !netlocDelim c) rest c hc
      simpa using this
  next =>
    refine ⟨?_, ?_, ?_, ?_⟩
    · intro c hc
      simp at hc
    · intro c hc
      simp at hc
    · intro c hc
      exact hc
    · intro hne
      exact absurd rfl hne

theorem urlsplit_wf (u : List Char) :
    ((urlsplitList u).scheme = [] ∨
      ((∀ c, (urlsplitList u).scheme.head? = some c → c.isAlpha = true) ∧
       (∀ x ∈ (urlsplitList u).scheme, schemeChar x = true) ∧
       (urlsplitList u).scheme.map Char.toLower = (urlsplitList u).scheme)) ∧
    (∀ c ∈ (urlsplitList u).netloc, netlocDelim c = false) ∧
    (∀ c ∈ (urlsplitList u).path, c ≠ '?' ∧ c ≠ '#') ∧
    (∀ c ∈ (urlsplitList u).query, c ≠ '#') ∧
    (∀ c ∈ (urlsplitList u).scheme, isUnsafeUrlByte c = false) ∧
    (∀ c ∈ (urlsplitList u).netloc, isUnsafeUrlByte c = false) ∧
    (∀ c ∈ (urlsplitList u).path, isUnsafeUrlByte c = false) ∧
    (∀ c ∈ (urlsplitList u).query, isUnsafeUrlByte c = false) ∧
    ((urlsplitList u).netloc ≠ [] →
      ((urlsplitList u).path = [] ∨ (urlsplitList u).path.head? = some '/')) := by
  have hclean : ∀ c ∈ cleanUrl u, isUnsafeUrlByte c = false := by
    intro c hc
    unfold cleanUrl at hc
    have := List.mem_filter.mp hc
    simpa using this.2
  have hscheme : (urlsplitList u).scheme = (extractScheme (cleanUrl u)).1 := rfl
  have hnetloc : (urlsplitList u).netloc
      = (splitNetloc (extractScheme (cleanUrl u)).2).1 := rfl
  have hpath : (urlsplitList u).path
      = (splitTail '?'
          (splitTail '#' (splitNetloc (extractScheme (cleanUrl u)).2).2).1).1 := rfl
  have hquery : (urlsplitList u).query
      = (splitTail '?'
          (splitTail '#' (splitNetloc (extractScheme (cleanUrl u)).2).2).1).2 := rfl
  obtain ⟨hnl_delim, hnl_mem, hnl2_mem, hnl_head⟩ :=
    splitNetloc_wf (extractScheme (cleanUrl u)).2
  have hsr2 : ∀ c ∈ (extractScheme (cleanUrl u)).2, isUnsafeUrlByte c = false :=
    fun c hc => hclean c (extractScheme_snd_sublist _ c hc)
  refine ⟨?_, ?_, ?_, ?_, ?_, ?_, ?_, ?_, ?_⟩
  · rw [hscheme]
    exact extractScheme_fst_wf (cleanUrl u)
  · rw [hnetloc]
    exact hnl_delim
  · rw [hpath]
    intro c hc
    have h1 := splitTail_fst_all '?' _ c hc
    have h2 := splitTail_fst_all '#' _ c h1.2
    exact ⟨h1.1, h2.1⟩
  · rw [hquery]
    intro c hc
    have h1 := splitTail_snd_mem '?' _ c hc
    exact (splitTail_fst_all '#' _ c h1).1
  · rw [hscheme]
    exact extractScheme_fst_unsafe (cleanUrl u) hclean
  · rw [hnetloc]
    intro c hc
    exact hsr2 c (hnl_mem c hc)
  · rw [hpath]
    intro c hc
    have h1 := (splitTail_fst_all '?' _ c hc).2
    have h2 := (splitTail_fst_all '#' _ c h1).2
    exact hsr2 c (hnl2_mem c h2)
  · rw [hquery]
    intro c hc
    have h1 := splitTail_snd_mem '?' _ c hc
    have h2 := (splitTail_fst_all '#' _ c h1).2
    exact hsr2 c (hnl2_mem c h2)
  · rw [hnetloc, hpath]
    intro hne
    by_cases hp0 : (splitTail '?'
        (splitTail '#' (splitNetloc (extractScheme (cleanUrl u)).2).2).1).1 = []
    · left
      exact hp0
    · right
      cases hh : (splitTail '?'
          (splitTail '#' (splitNetloc (extractScheme (cleanUrl u)).2).2).1).1.head? with
      | none => exact absurd (List.head?_eq_none_iff.mp hh) hp0
      | some c =>
        have ha := splitTail_fst_head '?' _ c hh
        have hb := splitTail_fst_head '#' _ c ha.1
        have hdel := hnl_head hne c hb.1
        simp only [netlocDelim, Bool.or_eq_true, decide_eq_true_eq] at hdel
        rcases hdel with (h | h) | h
        · rw [h]
        · exact absurd h ha.2
        · exact absurd h hb.2

theorem normalizeUrlList_eq (u : List Char) :
    normalizeUrlList u
      = urlunsplitList (urlsplitList u).scheme (urlsplitList u).netloc
          (ppP (urlsplitList u).path) (urlsplitList u).query [] := rfl

theorem urlunsplit_netloc_form (s n pp q : List Char) (hn : n ≠ [])
    (hpp : pp = [] ∨ pp.head? = some '/') :
    urlunsplitList s n pp q []
      = (if s ≠ [] then s ++ ':' :: ('/' :: '/' :: (n ++ pp))
         else '/' :: '/' :: (n ++ pp))
        ++ (if q ≠ [] then '?' :: q else []) := by
  unfold urlunsplitList
  dsimp only
  have hcore : (if pp ≠ [] ∧ pp.head? ≠ some '/' then '/' :: pp else pp) = pp := by
    rcases hpp with h | h
    · subst h
      rw [if_neg]
      rintro ⟨h1, _⟩
      exact h1 rfl
    · rw [if_neg]
      rintro ⟨_, h2⟩
      exact h2 h
  rw [if_pos (Or.inl hn), hcore]
  rw [if_neg (not_not_intro rfl)]
  by_cases hq : q ≠ []
  · rw [if_pos hq, if_pos hq]
  · rw [if_neg hq, if_neg hq, List.append_nil]

theorem not_mem_urlunsplit_no_frag (c : Char) (s n p q : List Char)
    (hc1 : c ∉ s) (hc2 : c ∉ n) (hc3 : c ∉ p) (hc4 : c ∉ q)
    (h1 : c ≠ ':') (h2 : c ≠ '/') (h3 : c ≠ '?') :
    c ∉ urlunsplitList s n p q [] := by
  have hurl2 : c ∉ (if p ≠ [] ∧ p.head? ≠ some '/' then '/' :: p else p) := by
    split
    · intro hm
      rcases List.mem_cons.mp hm with h | h
      · exact h2 h
      · exact hc3 h
    · exact hc3
  have hurl0 : c ∉ (if n ≠ [] ∨ (s ≠ [] ∧ s ∈ usesNetloc ∧ p.take 2 ≠ ['/', '/']) then
      '/' :: '/' :: (n ++ (if p ≠ [] ∧ p.head? ≠ some '/' then '/' :: p else p))
      else p) := by
    split
    · intro hm
      rcases List.mem_cons.mp hm with h | hm2
      · exact h2 h
      rcases List.mem_cons.mp hm2 with h | hm3
      · exact h2 h
      rcases List.mem_append.mp hm3 with h | h
      · exact hc2 h
      · exact hurl2 h
    · exact hc3
  have hurls : c ∉ (if s ≠ [] then
      s ++ ':' :: (if n ≠ [] ∨ (s ≠ [] ∧ s ∈ usesNetloc ∧ p.take 2 ≠ ['/', '/']) then
        '/' :: '/' :: (n ++ (if p ≠ [] ∧ p.head? ≠ some '/' then '/' :: p else p))
        else p)
      else (if n ≠ [] ∨ (s ≠ [] ∧ s ∈ usesNetloc ∧ p.take 2 ≠ ['/', '/']) then
        '/' :: '/' :: (n ++ (if p ≠ [] ∧ p.head? ≠ some '/' then '/' :: p else p))
        else p)) := by
    split
    · intro hm
      rcases List.mem_append.mp hm with h | hm2
      · exact hc1 h
      rcases List.mem_cons.mp hm2 with h | h
      · exact h1 h
      · exact hurl0 h
    · exact hurl0
  unfold urlunsplitList
  dsimp only
  rw [if_neg (not_not_intro rfl)]
  split
  · intro hm
    rcases List.mem_append.mp hm with h | hm2
    · exact hurls h
    rcases List.mem_cons.mp hm2 with h | h
    · exact h3 h
    · exact hc4 h
  · exact hurls

theorem reparse_kernel (s n p q : List Char)
    (hs : s = [] ∨ ((∀ c, s.head? = some c → c.isAlpha = true) ∧
          (∀ x ∈ s, schemeChar x = true) ∧ s.map Char.toLower = s))
    (hnd : ∀ c ∈ n, netlocDelim c = false)
    (hph : p = [] ∨ p.head? = some '/')
    (hpq : ∀ c ∈ p, c ≠ '?' ∧ c ≠ '#')
    (hqh : ∀ c ∈ q, c ≠ '#')
    (hsu : ∀ c ∈ s, isUnsafeUrlByte c = false)
    (hnu : ∀ c ∈ n, isUnsafeUrlByte c = false)
    (hpu : ∀ c ∈ p, isUnsafeUrlByte c = false)
    (hqu : ∀ c ∈ q, isUnsafeUrlByte c = false)
    (hn : n ≠ []) :
    urlsplitList (urlunsplitList s n p q []) = ⟨s, n, p, q, []⟩ := by
  rw [urlunsplit_netloc_form s n p q hn hph]
  have hTu : ∀ c ∈ (if q ≠ [] then '?' :: q else []), isUnsafeUrlByte c = false := by
    split
    · intro c hc
      rcases List.mem_cons.mp hc with h | h
      · rw [h]; decide
      · exact hqu c h
    · intro c hc
      simp at hc
  have hTq : ∀ c ∈ (if q ≠ [] then '?' :: q else []), c ≠ '#' := by
    split
    · intro c hc
      rcases List.mem_cons.mp hc with h | h
      · rw [h]; decide
      · exact hqh c h
    · intro c hc
      simp at hc
  have hpT_head : ∀ c,
      (p ++ (if q ≠ [] then '?' :: q else [])).head? = some c →
        netlocDelim c = true := by
    intro c hc
    rcases hph with hp0 | hph
    · subst hp0
      rw [List.nil_append] at hc
      revert hc
      split
      · intro hc
        simp only [List.head?_cons, Option.some.injEq] at hc
        rw [← hc]
        decide
      · intro hc
        simp at hc
    · cases p with
      | nil => simp at hph
      | cons a t =>
        rw [List.head?_cons] at hph
        rw [List.cons_append, List.head?_cons] at hc
        simp only [Option.some.injEq] at hph hc
        rw [← hc, hph]
        decide
  have hpT_hash : '#' ∉ p ++ (if q ≠ [] then '?' :: q else []) := by
    intro hm
    rcases List.mem_append.mp hm with h | h
    · exact (hpq '#' h).2 rfl
    · exact hTq '#' h rfl
  have hpT_q : '?' ∉ p := fun hm => (hpq '?' hm).1 rfl
  have hsplit_q : splitTail '?' (p ++ (if q ≠ [] then '?' :: q else [])) = (p, q) := by
    by_cases hq : q = []
    · subst hq
      rw [if_neg (not_not_intro rfl), List.append_nil]
      exact splitTail_of_not_mem '?' p hpT_q
    · rw [if_pos hq]
      exact splitTail_append '?' p q hpT_q
  have hshape : ∀ (T : List Char),
      ('/' :: '/' :: (n ++ p)) ++ T = '/' :: '/' :: (n ++ (p ++ T)) := by
    intro T
    simp
  by_cases hs0 : s = []
  · subst hs0
    rw [if_neg (not_not_intro rfl), hshape]
    have hOu : ∀ c ∈ '/' :: '/' ::
        (n ++ (p ++ (if q ≠ [] then '?' :: q else []))),
        isUnsafeUrlByte c = false := by
      intro c hc
      rcases List.mem_cons.mp hc with h | hc2
      · rw [h]; decide
      rcases List.mem_cons.mp hc2 with h | hc3
      · rw [h]; decide
      rcases List.mem_append.mp hc3 with h | h
      · exact hnu c h
      rcases List.mem_append.mp h with h2 | h2
      · exact hpu c h2
      · exact hTu c h2
    have hOh : ∀ c, ('/' :: '/' ::
        (n ++ (p ++ (if q ≠ [] then '?' :: q else [])))).head? = some c →
        isC0OrSpace c = false := by
      intro c hc
      simp only [List.head?_cons, Option.some.injEq] at hc
      rw [← hc]
      decide
    have hOa : ∀ c, ('/' :: '/' ::
        (n ++ (p ++ (if q ≠ [] then '?' :: q else [])))).head? = some c →
        c.isAlpha = false := by
      intro c hc
      simp only [List.head?_cons, Option.some.injEq] at hc
      rw [← hc]
      decide
    unfold urlsplitList
    dsimp only
    rw [cleanUrl_eq_self _ hOu hOh]
    rw [extractScheme_of_head_not_alpha _ hOa]
    dsimp only
    rw [splitNetloc_slash2 n _ hnd hpT_head]
    dsimp only
    rw [splitTail_of_not_mem '#' _ hpT_hash]
    dsimp only
    rw [hsplit_q]
  · obtain ⟨hsh, hsc, hsl⟩ := hs.resolve_left hs0
    rw [if_pos hs0]
    have hshape2 : (s ++ ':' :: ('/' :: '/' :: (n ++ p)))
        ++ (if q ≠ [] then '?' :: q else [])
        = s ++ ':' :: (('/' :: '/' :: (n ++ p))
            ++ (if q ≠ [] then '?' :: q else [])) := by
      simp
    rw [hshape2, hshape]
    have hOu2 : ∀ c ∈ s ++ ':' :: ('/' :: '/' ::
        (n ++ (p ++ (if q ≠ [] then '?' :: q else [])))),
        isUnsafeUrlByte c = false := by
      intro c hc
      rcases List.mem_append.mp hc with h | hc2
      · exact hsu c h
      rcases List.mem_cons.mp hc2 with h | hc3
      · rw [h]; decide
      rcases List.mem_cons.mp hc3 with h | hc4
      · rw [h]; decide
      rcases List.mem_cons.mp hc4 with h | hc5
      · rw [h]; decide
      rcases List.mem_append.mp hc5 with h | h
      · exact hnu c h
      rcases List.mem_append.mp h with h2 | h2
      · exact hpu c h2
      · exact hTu c h2
    have hOh2 : ∀ c, (s ++ ':' :: ('/' :: '/' ::
        (n ++ (p ++ (if q ≠ [] then '?' :: q else []))))).head? = some c →
        isC0OrSpace c = false := by
      intro c hc
      cases s with
      | nil => exact absurd rfl hs0
      | cons a t =>
        rw [List.cons_append, List.head?_cons] at hc
        simp only [Option.some.injEq] at hc
        have hgt := isAlpha_gt_32 a (hsh a rfl)
        rw [← hc]
        unfold isC0OrSpace
        simp only [decide_eq_false_iff_not]
        omega
    unfold urlsplitList
    dsimp only
    rw [cleanUrl_eq_self _ hOu2 hOh2]
    rw [extractScheme_scheme_led s _ hs0 hsh hsc hsl]
    dsimp only
    rw [splitNetloc_slash2 n _ hnd hpT_head]
    dsimp only
    rw [splitTail_of_not_mem '#' _ hpT_hash]
    dsimp only
    rw [hsplit_q]

theorem normalize_reparse (u : List Char) (hn : (urlsplitList u).netloc ≠ []) :
    urlsplitList (normalizeUrlList u)
      = ⟨(urlsplitList u).scheme, (urlsplitList u).netloc,
         ppP (urlsplitList u).path, (urlsplitList u).query, []⟩ := by
  obtain ⟨hs_wf, hnd, hpch, hqch, hsu, hnu, hpu, hqu, hnp⟩ := urlsplit_wf u
  rw [normalizeUrlList_eq u]
  apply reparse_kernel
  · exact hs_wf
  · exact hnd
  · by_cases hpe : ppP (urlsplitList u).path = []
    · left
      exact hpe
    · right
      have hpne : (urlsplitList u).path ≠ [] := by
        intro h0
        apply hpe
        rw [h0]
        exact ppP_eq_of_nil [] [] (splitParams_no_semi [] (by simp))
      rw [ppP_head_eq _ hpe]
      rcases hnp hn with h0 | hh
      · exact absurd h0 hpne
      · exact hh
  · intro c hc
    exact hpch c (ppP_mem hc)
  · exact hqch
  · exact hsu
  · exact hnu
  · intro c hc
    exact hpu c (ppP_mem hc)
  · exact hqu
  · exact hn

theorem normalizeUrlList_idem (u : List Char)
    (hn : (urlsplitList u).netloc ≠ []) :
    normalizeUrlList (normalizeUrlList u) = normalizeUrlList u := by
  rw [normalizeUrlList_eq (normalizeUrlList u), normalize_reparse u hn]
  dsimp only
  rw [ppP_idem]
  exact (normalizeUrlList_eq u).symm

theorem normalize_no_fragment (u : List Char) : '#' ∉ normalizeUrlList u := by
  obtain ⟨hs_wf, hnd, hpch, hqch, _, _, _, _, _⟩ := urlsplit_wf u
  rw [normalizeUrlList_eq u]
  apply not_mem_urlunsplit_no_frag
  · intro hm
    rcases hs_wf with h0 | ⟨_, hall, _⟩
    · rw [h0] at hm
      simp at hm
    · exact absurd (hall '#' hm) (by decide)
  · intro hm
    exact absurd (hnd '#' hm) (by decide)
  · intro hm
    exact (hpch '#' (ppP_mem hm)).2 rfl
  · intro hm
    exact hqch '#' hm rfl
  · decide
  · decide
  · decide

/-- C9 counterexample: normalize_url is not idempotent as claimed. On the
host-less input "/////x" (empty scheme and netloc, path "/////x" whose
netloc extraction consumes the leading "//"), one application yields
"///x" and a second application yields "/x", so
normalize_url (normalize_url u) differs from normalize_url u. -/
theorem normalize_url_not_idempotent_counterexample :
    normalize_url (normalize_url "/////x") ≠ normalize_url "/////x" := by
  decide

/-- C9 (amended): for every string u, normalize_url u carries no fragment
(no '#' occurs in it), and normalize_url is idempotent on every input
whose parsed netloc is non-empty, which covers every http(s)://host URL
the crawler admits; idempotence fails only on host-less inputs such as
"/////x". -/
theorem normalize_url_fragment_free_and_idempotent_on_hosts (u : String) :
    '#' ∉ (normalize_url u).data ∧
    ((urlsplitList u.data).netloc ≠ [] →
      normalize_url (normalize_url u) = normalize_url u) := by
  constructor
  · exact normalize_no_fragment u.data
  · intro hn
    unfold normalize_url
    exact congrArg (fun l => (⟨l⟩ : String)) (normalizeUrlList_idem u.data hn)

/-- C9 witness: the parsed netloc of "https://Example.COM/a/b?x=1" is
non-empty and normalizing its normalization is a fixed point. -/
theorem normalize_url_fragment_free_and_idempotent_on_hosts_witness :
    (urlsplitList ("https://Example.COM/a/b?x=1".data)).netloc ≠ [] ∧
    normalize_url (normalize_url "https://Example.COM/a/b?x=1")
      = normalize_url "https://Example.COM/a/b?x=1" :=
  ⟨by decide,
   (normalize_url_fragment_free_and_idempotent_on_hosts
     "https://Example.COM/a/b?x=1").2 (by decide)⟩

end GraphCrawler
